import Mathlib

/-!
# NRF24L01_RF stream filters: fragmenter, defragmenter, pixel conversions

Shallow embedding of `fragment_grayscale.c`,
`defragment_grayscale_to_rgb565_grayscale.c` and the quantisation of
`YUV420_to_4bit_grayscale.c`.

Conventions of the embedding:
* A C array of `n` elements is a `CArray n`; two-dimensional arrays are
  stored row-major, `a[y][x]` being element `y * WIDTH + x`. Every access the
  source performs with a computed index is bounds-checked, and an access
  outside the declared array makes the step return `none`.
* `uint8_t` variables are natural numbers kept below 256 by an explicit
  `% 256` at each increment; the `uint16_t` store is an explicit `% 65536`.
* Array elements are natural numbers. The element type of the source
  (`uint8_t`, `uint16_t`) bounds them; a statement assumes that bound only
  where it depends on it.
* `for` loops with a constant trip count are structural recursion on the
  number of remaining iterations.
-/

namespace NRF24

/-- The constant `#define WIDTH 128`. -/
def WIDTH : Nat := 128

/-- The constant `#define HEIGHT 160`. -/
def HEIGHT : Nat := 160

/-- A C array of `n` integer elements. -/
structure CArray (n : Nat) where
  data : Array Nat
  size_eq : data.size = n

namespace CArray

/-- The element at position `i` (0 outside the array). -/
def get {n : Nat} (a : CArray n) (i : Nat) : Nat := a.data.getD i 0

/-- The store `a[i] = v`; `none` when `i` is outside the array. -/
def store {n : Nat} (a : CArray n) (i v : Nat) : Option (CArray n) :=
  if h : i < n then
    some ⟨a.data.set ⟨i, by rw [a.size_eq]; exact h⟩ v, by rw [Array.size_set]; exact a.size_eq⟩
  else none

/-- The array whose element `i` is `f i`. -/
def ofFn {n : Nat} (f : Nat → Nat) : CArray n :=
  ⟨Array.ofFn (fun i : Fin n => f i.val), Array.size_ofFn _⟩

end CArray

/-- A frame `uint8_t grayscale[HEIGHT][WIDTH]`. -/
abbrev Frame := CArray (HEIGHT * WIDTH)

/-- The framebuffer `uint16_t rgb565[HEIGHT][WIDTH]`. -/
abbrev Framebuffer := CArray (HEIGHT * WIDTH)

/-- A packet `uint8_t fragment[32]`. -/
abbrev Packet := CArray 32

/-- The packet buffer `uint8_t fragment_buffer[32*682]`. -/
abbrev FragmentBuffer := CArray (32 * 682)

/-- The element `a[row][col]` of a `HEIGHT` by `WIDTH` array. -/
def at2 (a : CArray (HEIGHT * WIDTH)) (row col : Nat) : Nat := a.get (row * WIDTH + col)

/-- The loop `for (int i = start; ...; i++) body`, with `n` iterations left. -/
def forLoop {σ : Type} (body : Nat → σ → Option σ) : Nat → Nat → σ → Option σ
  | _, 0, s => some s
  | i, n + 1, s => (body i s).bind (forLoop body (i + 1) n)

/-! ## `fragment_grayscale.c` -/

/-- The local variables of the fragmenter's `main`: cursor `x`, `y`, write
position `index` and the packet buffer. -/
structure FragState where
  x : Nat
  y : Nat
  index : Nat
  fragment_buffer : FragmentBuffer

/-- Lines 29-30: `fragment_buffer[index++] = x; fragment_buffer[index++] = y;`. -/
def fragHeader (s : FragState) : Option FragState :=
  (s.fragment_buffer.store s.index s.x).bind fun buf1 =>
  (buf1.store (s.index + 1) s.y).map fun buf2 =>
    { s with index := s.index + 2, fragment_buffer := buf2 }

/-- Lines 32-36, one iteration of the payload loop: wrap test, then
`fragment_buffer[index++] = grayscale[y][x++];`. -/
def fragPayload (grayscale : Frame) (_i : Nat) (s : FragState) : Option FragState :=
  let x := if s.x ≥ WIDTH then 0 else s.x
  let y := if s.x ≥ WIDTH then (s.y + 1) % 256 else s.y
  if y < HEIGHT ∧ x < WIDTH then
    (s.fragment_buffer.store s.index (at2 grayscale y x)).map fun buf =>
      { x := (x + 1) % 256, y := y, index := s.index + 1, fragment_buffer := buf }
  else none

/-- Lines 29-37, the body of the loop over `j`: header, then
`for (int i = 2; i < 32; i++)`. -/
def fragPacket (grayscale : Frame) (_j : Nat) (s : FragState) : Option FragState :=
  (fragHeader s).bind (forLoop (fragPayload grayscale) 2 (32 - 2))

/-- Lines 25-38: `x = 0; y = 0; index = 0;` then `for (int j = 0; j < 682; j++)`.
The argument `prev` is the state the previous iteration of `while(1)` left. -/
def fragmentFrame (prev : FragState) (grayscale : Frame) : Option FragState :=
  forLoop (fragPacket grayscale) 0 682 { prev with x := 0, y := 0, index := 0 }

/-- One iteration of the fragmenter's `while(1)` on the frame just read: the
bytes of `write(1, fragment_buffer, sizeof(fragment_buffer))`. -/
def fragmenterOutput (prev : FragState) (grayscale : Frame) : Option (List Nat) :=
  (fragmentFrame prev grayscale).map (fun s => s.fragment_buffer.data.toList)

/-! ## `defragment_grayscale_to_rgb565_grayscale.c` -/

/-- Line 40: `uint8_t r = gray/8;`. -/
def red5 (gray : Nat) : Nat := gray / 8 % 256

/-- Line 41: `uint8_t g = gray/4;`. -/
def green6 (gray : Nat) : Nat := gray / 4 % 256

/-- Line 42: `uint8_t b = gray/8;`. -/
def blue5 (gray : Nat) : Nat := gray / 8 % 256

/-- Lines 40-43: the value `(r << 11) | (g << 5) | b` stored into a `uint16_t`. -/
def rgb565Convert (gray : Nat) : Nat :=
  ((red5 gray <<< 11) ||| (green6 gray <<< 5) ||| blue5 gray) % 65536

/-- The cursor `x`, `y` of the defragmenter's packet loop and the framebuffer. -/
structure DefragCursor where
  x : Nat
  y : Nat
  rgb565 : Framebuffer

/-- Lines 35-43, one iteration of `for (int i = 2; i < 32; i++)`: wrap test,
conversion of `fragment[i]`, then `rgb565[y][x++] = ...`. -/
def defragPixel (fragment : Packet) (i : Nat) (s : DefragCursor) : Option DefragCursor :=
  let x := if s.x ≥ WIDTH then 0 else s.x
  let y := if s.x ≥ WIDTH then (s.y + 1) % 256 else s.y
  let gray := fragment.get i
  if y < HEIGHT ∧ x < WIDTH then
    (s.rgb565.store (y * WIDTH + x) (rgb565Convert gray)).map fun fb =>
      { x := (x + 1) % 256, y := y, rgb565 := fb }
  else none

/-- Lines 32-44: the per-packet update of the framebuffer. -/
def defragPacket (rgb565 : Framebuffer) (fragment : Packet) : Option Framebuffer :=
  (forLoop (defragPixel fragment) 2 (32 - 2)
    { x := fragment.get 0, y := fragment.get 1, rgb565 := rgb565 }).map (fun s => s.rgb565)

/-- The per-packet update applied to a sequence of packets, in order. -/
def defragPackets : List Packet → Framebuffer → Option Framebuffer
  | [], fb => some fb
  | p :: ps, fb => (defragPacket fb p).bind (defragPackets ps)

/-- The `j`-th 32-byte read `read(0, fragment, sizeof(fragment))` from a byte
stream. -/
def packetAt (stream : List Nat) (j : Nat) : Packet :=
  CArray.ofFn (fun i => stream.getD (32 * j + i) 0)

/-- The 682 packets of one frame's output, in order. -/
def framePackets (stream : List Nat) : List Packet :=
  (List.range 682).map (packetAt stream)

/-- Line 28: `uint8_t gray = y[i][j]/16;`. -/
def gray4 (v : Nat) : Nat := v / 16 % 256

/-! ## Closed forms used in the statements -/

/-- The column byte of the header of packet `j`: the cursor column left by the
`30 * j` samples emitted before it. -/
def headerX (j : Nat) : Nat := if j = 0 then 0 else (30 * j - 1) % 128 + 1

/-- The row byte of the header of packet `j`. -/
def headerY (j : Nat) : Nat := (30 * j - 1) / 128

/-- Byte `k` of the fragmenter's output for the frame `grayscale`. -/
def fragByte (grayscale : Frame) (k : Nat) : Nat :=
  if k % 32 = 0 then headerX (k / 32)
  else if k % 32 = 1 then headerY (k / 32)
  else grayscale.get (30 * (k / 32) + (k % 32 - 2))

/-! ## Concrete inputs -/

/-- The all-black frame. -/
def zeroFrame : Frame := CArray.ofFn (fun _ => 0)

/-- A frame that is black except for its last 20 samples, which are white. -/
def tailFrame : Frame := CArray.ofFn (fun k => if 20460 ≤ k then 255 else 0)

/-- A fragmenter state with a zeroed packet buffer. -/
def zeroFragState : FragState :=
  { x := 0, y := 0, index := 0, fragment_buffer := CArray.ofFn (fun _ => 0) }

/-- The zeroed framebuffer. -/
def zeroFramebuffer : Framebuffer := CArray.ofFn (fun _ => 0)

/-- The packet `[0, 0, 10, 20, ..., 10, 20]`. -/
def examplePacket : Packet :=
  CArray.ofFn (fun i => if i < 2 then 0 else if i % 2 = 0 then 10 else 20)

/-! ## `YUV420_to_4bit_grayscale.c`: the conversion pass -/

/-- The output buffer `uint8_t grayscale_4bit[HEIGHT][WIDTH/2]`. -/
abbrev Gray4Buffer := CArray (HEIGHT * (WIDTH / 2))

/-- Line 32: the value `(gray << 4)` stored into a `uint8_t`, for the sample `v`. -/
def packEven (v : Nat) : Nat := (gray4 v <<< 4) % 256

/-- Line 30: the value of `byte |= gray` stored into a `uint8_t`, for the
sample `v`. -/
def packOdd (byte v : Nat) : Nat := (byte ||| gray4 v) % 256

/-- The byte lines 28-33 leave for an even-column sample `a` followed by the
odd-column sample `b`. -/
def packPair (a b : Nat) : Nat := packOdd (packEven a) b

/-- Lines 28-33, one iteration of the loop over `j` in row `i`. -/
def packStep (y : Frame) (i j : Nat) (grayscale_4bit : Gray4Buffer) : Option Gray4Buffer :=
  if i < HEIGHT ∧ j < WIDTH then
    if j &&& 1 ≠ 0 then
      grayscale_4bit.store (i * (WIDTH / 2) + j / 2)
        (packOdd (grayscale_4bit.get (i * (WIDTH / 2) + j / 2)) (at2 y i j))
    else
      grayscale_4bit.store (i * (WIDTH / 2) + j / 2) (packEven (at2 y i j))
  else none

/-- Lines 27-34: `for (int j = 0; j < WIDTH; j ++)` in row `i`. -/
def packRow (y : Frame) (i : Nat) (grayscale_4bit : Gray4Buffer) : Option Gray4Buffer :=
  forLoop (packStep y i) 0 WIDTH grayscale_4bit

/-- Lines 26-35: one conversion pass, `for (int i = 0; i < HEIGHT; i++)`, on the
buffer contents `prev` the previous pass left. -/
def depthPack (prev : Gray4Buffer) (y : Frame) : Option Gray4Buffer :=
  forLoop (packRow y) 0 HEIGHT prev

/-- Byte `idx` of the packed frame: row `idx / 64`, byte column `idx % 64`. -/
def packedByte (y : Frame) (idx : Nat) : Nat :=
  packPair (at2 y (idx / 64) (2 * (idx % 64))) (at2 y (idx / 64) (2 * (idx % 64) + 1))

/-- A frame whose samples run through all byte values. -/
def rampFrame : Frame := CArray.ofFn (fun k => k % 256)

/-- An output buffer with every bit set. -/
def onesGray4 : Gray4Buffer := CArray.ofFn (fun _ => 255)

/-! ## Packet origins -/

/-- The cursor the wrap test of the first iteration of the defragmenter's packet
loop (lines 35-38) turns the origin `(ox, oy)` into. -/
def wrapOrigin (ox oy : Nat) : Nat × Nat :=
  if ox ≥ WIDTH then (0, (oy + 1) % 256) else (ox, oy)

/-- The packet with the payload of `fragment` and the origin `(ox, oy)`. -/
def withOrigin (fragment : Packet) (ox oy : Nat) : Packet :=
  CArray.ofFn (fun i => if i = 0 then ox else if i = 1 then oy else fragment.get i)

/-- The example packet with the origin `(200, 3)`, whose column is outside the
frame. -/
def wrapExample : Packet := withOrigin examplePacket 200 3

/-- The example packet with the origin `(127, 159)`: its second pixel falls
below the last row. -/
def overrunExample : Packet := withOrigin examplePacket 127 159

/-! ## The fragmenter written with the wrap test `x == W` -/

/-- The payload iteration as the specification words it: "if `x == W`, reset
`x = 0` and increment `y`; emit `frame[y][x]`; increment `x`". -/
def specFragPayload (grayscale : Frame) (_i : Nat) (s : FragState) : Option FragState :=
  let x := if s.x = WIDTH then 0 else s.x
  let y := if s.x = WIDTH then (s.y + 1) % 256 else s.y
  if y < HEIGHT ∧ x < WIDTH then
    (s.fragment_buffer.store s.index (at2 grayscale y x)).map fun buf =>
      { x := (x + 1) % 256, y := y, index := s.index + 1, fragment_buffer := buf }
  else none

/-- One packet as the specification words it: the current cursor as the header,
then 30 payload bytes. -/
def specFragPacket (grayscale : Frame) (_j : Nat) (s : FragState) : Option FragState :=
  (fragHeader s).bind (forLoop (specFragPayload grayscale) 2 (32 - 2))

/-- One frame as the specification words it: cursor `(0, 0)`, then 682 packets. -/
def specFragmentFrame (prev : FragState) (grayscale : Frame) : Option FragState :=
  forLoop (specFragPacket grayscale) 0 682 { prev with x := 0, y := 0, index := 0 }

/-- The bytes the fragmenter of the specification writes for one frame. -/
def specFragmenterOutput (prev : FragState) (grayscale : Frame) : Option (List Nat) :=
  (specFragmentFrame prev grayscale).map (fun s => s.fragment_buffer.data.toList)

/-! ## Intermediate states of the fragmenter -/

/-- The state of `fragmentFrame` when iteration `j` of the loop over the packets
is about to start. -/
def fragStateBeforePacket (prev : FragState) (grayscale : Frame) (j : Nat) : Option FragState :=
  forLoop (fragPacket grayscale) 0 j { prev with x := 0, y := 0, index := 0 }

/-- The state of `fragmentFrame` in packet `j`, after the header and `m`
iterations of the payload loop: the state in which the next wrap test and
sample read take place. -/
def fragStateAt (prev : FragState) (grayscale : Frame) (j m : Nat) : Option FragState :=
  (fragStateBeforePacket prev grayscale j).bind fun s =>
    (fragHeader s).bind (forLoop (fragPayload grayscale) 2 m)

/-! ## Pixel ranges of packets -/

/-- The raster index `128 * origin_y + origin_x` at which the pixels of a packet
start. -/
def packetStart (p : Packet) : Nat := 128 * p.get 1 + p.get 0

/-- A packet whose 30 pixels are the raster indices
`packetStart p, ..., packetStart p + 29` of the framebuffer. -/
def packetFits (p : Packet) : Prop := p.get 0 ≤ 128 ∧ packetStart p + 30 ≤ 20480

/-- Two packets whose pixel ranges do not meet. -/
def writesDisjoint (p q : Packet) : Prop :=
  packetStart p + 30 ≤ packetStart q ∨ packetStart q + 30 ≤ packetStart p

end NRF24

/-! ## Theorems -/

namespace NRF24

/-! ### Arrays -/

theorem CArray.store_spec {n : Nat} (a : CArray n) (i v : Nat) (h : i < n) :
    ∃ b, a.store i v = some b ∧ ∀ k, b.get k = if k = i then v else a.get k := by
  refine ⟨⟨a.data.set ⟨i, by rw [a.size_eq]; exact h⟩ v, by rw [Array.size_set]; exact a.size_eq⟩,
    by simp [CArray.store, h], ?_⟩
  intro k
  have hs := a.size_eq
  simp only [CArray.get, Array.getD]
  by_cases hk : k = i
  · subst hk
    simp [hs, h]
  · by_cases hkn : k < n
    · simp [hs, hkn, hk, Array.getElem_set, Ne.symm hk]
    · simp [hs, hkn, hk]

theorem CArray.store_none {n : Nat} (a : CArray n) (i v : Nat) (h : n ≤ i) :
    a.store i v = none := by
  simp [CArray.store, Nat.not_lt.mpr h]

theorem CArray.get_ofFn {n : Nat} (f : Nat → Nat) (k : Nat) :
    (CArray.ofFn f : CArray n).get k = if k < n then f k else 0 := by
  simp only [CArray.get, CArray.ofFn, Array.getD]
  by_cases hk : k < n <;> simp [hk]

theorem CArray.get_of_le {n : Nat} (a : CArray n) (k : Nat) (h : n ≤ k) : a.get k = 0 := by
  simp [CArray.get, Array.getD, a.size_eq, Nat.not_lt.mpr h]

theorem CArray.ext_get {n : Nat} (a b : CArray n) (h : ∀ k, k < n → a.get k = b.get k) :
    a = b := by
  obtain ⟨da, ha⟩ := a
  obtain ⟨db, hb⟩ := b
  have : da = db := by
    apply Array.ext
    · rw [ha, hb]
    · intro i h1 h2
      have := h i (by rw [← ha]; exact h1)
      simpa [CArray.get, Array.getD, h1, h2] using this
  subst this
  rfl

theorem CArray.toList_eq {n : Nat} (a : CArray n) :
    a.data.toList = (List.range n).map a.get := by
  apply List.ext_getElem
  · simp [a.size_eq]
  · intro i h1 h2
    simp at h1
    simp [CArray.get, Array.getD, h1]

/-! ### The fragmenter in closed form -/

theorem fragPayload_step (g : Frame) (i : Nat) (s : FragState) (n : Nat)
    (hx : s.x ≤ 128) (hn : 128 * s.y + s.x = n) (hlt : n < 20480)
    (hidx : s.index < 21824) :
    ∃ s', fragPayload g i s = some s' ∧ 1 ≤ s'.x ∧ s'.x ≤ 128 ∧
      128 * s'.y + s'.x = n + 1 ∧ s'.index = s.index + 1 ∧
      ∀ k, s'.fragment_buffer.get k =
        if k = s.index then g.get n else s.fragment_buffer.get k := by
  by_cases hw : s.x ≥ 128
  · have hy : (s.y + 1) % 256 = s.y + 1 := by omega
    obtain ⟨b, hb, hget⟩ := s.fragment_buffer.store_spec s.index
      (at2 g (s.y + 1) 0) hidx
    refine ⟨{ x := 1, y := s.y + 1, index := s.index + 1, fragment_buffer := b }, ?_, ?_⟩
    · have hc : s.y + 1 < 160 := by omega
      simp [fragPayload, WIDTH, HEIGHT, hw, hy, hb, hc]
    · refine ⟨by simp, by simp, by simp; omega, rfl, ?_⟩
      intro k
      rw [hget k]
      have : at2 g (s.y + 1) 0 = g.get n := by
        simp only [at2, WIDTH]
        congr 1
        omega
      simp [this]
  · have hx' : s.x < 128 := by omega
    obtain ⟨b, hb, hget⟩ := s.fragment_buffer.store_spec s.index
      (at2 g s.y s.x) hidx
    refine ⟨{ x := s.x + 1, y := s.y, index := s.index + 1, fragment_buffer := b }, ?_, ?_⟩
    · have hc : s.y < 160 := by omega
      have hm : (s.x + 1) % 256 = s.x + 1 := by omega
      simp [fragPayload, WIDTH, HEIGHT, hw, hb, hc, hx', hm]
    · refine ⟨by simp, by simp; omega, by simp; omega, rfl, ?_⟩
      intro k
      rw [hget k]
      have : at2 g s.y s.x = g.get n := by
        simp only [at2, WIDTH]
        congr 1
        omega
      simp [this]

theorem fragPayload_loop (g : Frame) :
    ∀ (m i : Nat) (s : FragState) (n : Nat), s.x ≤ 128 → 128 * s.y + s.x = n →
      n + m ≤ 20480 → s.index + m ≤ 21824 →
      ∃ s', forLoop (fragPayload g) i m s = some s' ∧ s'.x ≤ 128 ∧
        128 * s'.y + s'.x = n + m ∧ (0 < m → 1 ≤ s'.x) ∧ s'.index = s.index + m ∧
        ∀ k, s'.fragment_buffer.get k =
          if s.index ≤ k ∧ k < s.index + m then g.get (n + (k - s.index))
          else s.fragment_buffer.get k := by
  intro m
  induction m with
  | zero =>
    intro i s n hx hn _ _
    exact ⟨s, rfl, hx, by simpa using hn, by simp, rfl, fun k => by
      have : ¬ (s.index ≤ k ∧ k < s.index + 0) := by omega
      rw [if_neg this]⟩
  | succ m ih =>
    intro i s n hx hn hlt hidx
    obtain ⟨s1, h1, hx1, hx1', hn1, hi1, hb1⟩ :=
      fragPayload_step g i s n hx hn (by omega) (by omega)
    obtain ⟨s2, h2, hx2, hn2, _, hi2, hb2⟩ :=
      ih (i + 1) s1 (n + 1) hx1' hn1 (by omega) (by omega)
    refine ⟨s2, by simp [forLoop, h1, h2], hx2, by omega, ?_, by omega, ?_⟩
    · intro _
      by_cases hm : 0 < m
      · rename_i h3 _
        exact h3 hm
      · have hm0 : m = 0 := by omega
        subst hm0
        simp [forLoop] at h2
        subst h2
        exact hx1
    · intro k
      rw [hb2 k, hb1 k, hi1]
      by_cases hk : k = s.index
      · have h1 : ¬ (s.index + 1 ≤ k ∧ k < s.index + 1 + m) := by omega
        have h2 : s.index ≤ k ∧ k < s.index + (m + 1) := by omega
        rw [if_neg h1, if_pos hk, if_pos h2]
        congr 1
        omega
      · by_cases hr : s.index + 1 ≤ k ∧ k < s.index + 1 + m
        · have h2 : s.index ≤ k ∧ k < s.index + (m + 1) := by omega
          rw [if_pos hr, if_pos h2]
          congr 1
          omega
        · have h2 : ¬ (s.index ≤ k ∧ k < s.index + (m + 1)) := by omega
          rw [if_neg hr, if_neg h2, if_neg hk]

theorem fragHeader_spec (s : FragState) (hidx : s.index + 2 ≤ 21824) :
    ∃ s', fragHeader s = some s' ∧ s'.x = s.x ∧ s'.y = s.y ∧ s'.index = s.index + 2 ∧
      ∀ k, s'.fragment_buffer.get k =
        if k = s.index then s.x else if k = s.index + 1 then s.y
        else s.fragment_buffer.get k := by
  obtain ⟨b1, hb1, hg1⟩ := s.fragment_buffer.store_spec s.index s.x (by omega)
  obtain ⟨b2, hb2, hg2⟩ := b1.store_spec (s.index + 1) s.y (by omega)
  have hh : fragHeader s = some { s with index := s.index + 2, fragment_buffer := b2 } := by
    unfold fragHeader
    rw [hb1, Option.some_bind, hb2, Option.map_some']
  refine ⟨_, hh, rfl, rfl, rfl, ?_⟩
  intro k
  show b2.get k = _
  rw [hg2 k, hg1 k]
  by_cases h0 : k = s.index
  · have h1 : ¬ k = s.index + 1 := by omega
    rw [if_neg h1, if_pos h0, if_pos h0]
  · rw [if_neg h0, if_neg h0]

theorem fragPacket_spec (g : Frame) (j : Nat) (s : FragState) (n : Nat)
    (hx : s.x ≤ 128) (hn : 128 * s.y + s.x = n) (hlt : n + 30 ≤ 20480)
    (hidx : s.index + 32 ≤ 21824) :
    ∃ s', fragPacket g j s = some s' ∧ 1 ≤ s'.x ∧ s'.x ≤ 128 ∧
      128 * s'.y + s'.x = n + 30 ∧ s'.index = s.index + 32 ∧
      ∀ k, s'.fragment_buffer.get k =
        if k = s.index then s.x else if k = s.index + 1 then s.y
        else if s.index + 2 ≤ k ∧ k < s.index + 32 then g.get (n + (k - (s.index + 2)))
        else s.fragment_buffer.get k := by
  obtain ⟨s1, h1, hx1, hy1, hi1, hb1⟩ := fragHeader_spec s (by omega)
  obtain ⟨s2, h2, hx2, hn2, hp2, hi2, hb2⟩ :=
    fragPayload_loop g 30 2 s1 n (by omega) (by rw [hx1, hy1]; exact hn) hlt (by omega)
  have hh : fragPacket g j s = some s2 := by
    unfold fragPacket
    rw [h1, Option.some_bind]
    exact h2
  refine ⟨s2, hh, hp2 (by omega), hx2, hn2, by omega, ?_⟩
  intro k
  rw [hb2 k, hb1 k, hi1]
  by_cases hr : s.index + 2 ≤ k ∧ k < s.index + 2 + 30
  · have h0 : ¬ k = s.index := by omega
    have h1 : ¬ k = s.index + 1 := by omega
    have h2 : s.index + 2 ≤ k ∧ k < s.index + 32 := by omega
    rw [if_pos hr, if_neg h0, if_neg h1, if_pos h2]
  · rw [if_neg hr]
    have h2 : ¬ (s.index + 2 ≤ k ∧ k < s.index + 32) := by omega
    by_cases h0 : k = s.index
    · rw [if_pos h0, if_pos h0]
    · rw [if_neg h0, if_neg h0]
      by_cases h1 : k = s.index + 1
      · rw [if_pos h1, if_pos h1]
      · rw [if_neg h1, if_neg h1, if_neg h2]

theorem fragPackets_loop (g : Frame) :
    ∀ (m j : Nat) (s : FragState), j + m ≤ 682 → s.index = 32 * j →
      s.x ≤ 128 → 128 * s.y + s.x = 30 * j → (j = 0 ∨ 1 ≤ s.x) →
      ∃ s', forLoop (fragPacket g) j m s = some s' ∧ s'.index = 32 * (j + m) ∧
        s'.x ≤ 128 ∧ 128 * s'.y + s'.x = 30 * (j + m) ∧ (j + m = 0 ∨ 1 ≤ s'.x) ∧
        ∀ k, s'.fragment_buffer.get k =
          if 32 * j ≤ k ∧ k < 32 * (j + m) then fragByte g k
          else s.fragment_buffer.get k := by
  intro m
  induction m with
  | zero =>
    intro j s _ hi hx hn h0
    refine ⟨s, rfl, hi, hx, hn, h0, fun k => ?_⟩
    have : ¬ (32 * j ≤ k ∧ k < 32 * (j + 0)) := by omega
    rw [if_neg this]
  | succ m ih =>
    intro j s hj hi hx hn h0
    obtain ⟨s1, h1, hp1, hx1, hn1, hi1, hb1⟩ :=
      fragPacket_spec g j s (30 * j) hx hn (by omega) (by omega)
    obtain ⟨s2, h2, hi2, hx2, hn2, _, hb2⟩ :=
      ih (j + 1) s1 (by omega) (by omega) hx1 (by omega) (Or.inr hp1)
    have hh : forLoop (fragPacket g) j (m + 1) s = some s2 := by
      show (fragPacket g j s).bind (forLoop (fragPacket g) (j + 1) m) = some s2
      rw [h1, Option.some_bind]
      exact h2
    refine ⟨s2, hh, by omega, hx2, by omega, ?_, ?_⟩
    · rename_i h3
      rcases h3 with h3 | h3
      · omega
      · exact Or.inr h3
    · intro k
      rw [hb2 k, hb1 k, hi]
      by_cases hr : 32 * (j + 1) ≤ k ∧ k < 32 * (j + 1 + m)
      · have h2 : 32 * j ≤ k ∧ k < 32 * (j + (m + 1)) := by omega
        rw [if_pos hr, if_pos h2]
      · rw [if_neg hr]
        by_cases hq : 32 * j ≤ k ∧ k < 32 * (j + (m + 1))
        · rw [if_pos hq]
          have hd : k / 32 = j := by omega
          unfold fragByte
          rw [hd]
          by_cases c0 : k = 32 * j
          · have : k % 32 = 0 := by omega
            rw [if_pos c0, if_pos this]
            unfold headerX
            rcases h0 with h0 | h0
            · rw [if_pos h0]; omega
            · have : ¬ j = 0 := by omega
              rw [if_neg this]; omega
          · have c0' : ¬ k % 32 = 0 := by omega
            rw [if_neg c0, if_neg c0']
            by_cases c1 : k = 32 * j + 1
            · have : k % 32 = 1 := by omega
              rw [if_pos c1, if_pos this]
              unfold headerY
              rcases h0 with h0 | h0
              · subst h0; omega
              · omega
            · have c1' : ¬ k % 32 = 1 := by omega
              have c2 : 32 * j + 2 ≤ k ∧ k < 32 * j + 32 := by omega
              rw [if_neg c1, if_neg c1', if_pos c2]
              congr 1
              omega
        · rw [if_neg hq]
          have c0 : ¬ k = 32 * j := by omega
          have c1 : ¬ k = 32 * j + 1 := by omega
          have c2 : ¬ (32 * j + 2 ≤ k ∧ k < 32 * j + 32) := by omega
          rw [if_neg c0, if_neg c1, if_neg c2]

/-- The fragmenter's loop in closed form: it always completes, leaves the
cursor at column 108 of row 159 and the write position at 21824, and byte `k`
of the buffer is `fragByte grayscale k`. -/
theorem fragmentFrame_spec (prev : FragState) (g : Frame) :
    ∃ s, fragmentFrame prev g = some s ∧ s.index = 21824 ∧ s.x = 108 ∧ s.y = 159 ∧
      ∀ k, k < 21824 → s.fragment_buffer.get k = fragByte g k := by
  obtain ⟨s, h, hi, hx, hn, _, hb⟩ :=
    fragPackets_loop g 682 0 { prev with x := 0, y := 0, index := 0 } (by omega) rfl
      (by simp) (by simp) (Or.inl rfl)
  refine ⟨s, h, by omega, by omega, by omega, fun k hk => ?_⟩
  rw [hb k]
  have : 32 * 0 ≤ k ∧ k < 32 * (0 + 682) := by omega
  rw [if_pos this]

theorem fragmenterOutput_eq (prev : FragState) (g : Frame) :
    fragmenterOutput prev g = some ((List.range 21824).map (fragByte g)) := by
  obtain ⟨s, h, _, _, _, hb⟩ := fragmentFrame_spec prev g
  simp only [fragmenterOutput, h, Option.map_some', Option.some.injEq]
  rw [CArray.toList_eq]
  apply List.map_congr_left
  intro k hk
  exact hb k (by simpa using hk)

/-! ### The per-packet update of the defragmenter in closed form -/

theorem defragPixel_step (p : Packet) (i : Nat) (s : DefragCursor) (n : Nat)
    (hx : s.x ≤ 128) (hn : 128 * s.y + s.x = n) (hlt : n < 20480) :
    ∃ s', defragPixel p i s = some s' ∧ s'.x ≤ 128 ∧ 128 * s'.y + s'.x = n + 1 ∧
      ∀ k, s'.rgb565.get k =
        if k = n then rgb565Convert (p.get i) else s.rgb565.get k := by
  by_cases hw : s.x ≥ 128
  · have hy : (s.y + 1) % 256 = s.y + 1 := by omega
    have hc : s.y + 1 < 160 := by omega
    have hidx : (s.y + 1) * 128 + 0 = n := by omega
    obtain ⟨b, hb, hget⟩ := s.rgb565.store_spec n (rgb565Convert (p.get i))
      (by show n < 160 * 128; omega)
    refine ⟨{ x := 1, y := s.y + 1, rgb565 := b }, ?_, by simp, by simp; omega, hget⟩
    simp only [defragPixel, WIDTH, HEIGHT, hw, hy, hc, if_true, hidx, hb]
    simp
  · have hx' : s.x < 128 := by omega
    have hc : s.y < 160 := by omega
    have hm : (s.x + 1) % 256 = s.x + 1 := by omega
    have hidx : s.y * 128 + s.x = n := by omega
    obtain ⟨b, hb, hget⟩ := s.rgb565.store_spec n (rgb565Convert (p.get i))
      (by show n < 160 * 128; omega)
    refine ⟨{ x := s.x + 1, y := s.y, rgb565 := b }, ?_, by simp; omega, by simp; omega, hget⟩
    simp only [defragPixel, WIDTH, HEIGHT, hw, hc, hx', if_false, hm, hidx, hb]
    simp

theorem defragPixel_loop (p : Packet) :
    ∀ (m i : Nat) (s : DefragCursor) (n : Nat), s.x ≤ 128 → 128 * s.y + s.x = n →
      n + m ≤ 20480 →
      ∃ s', forLoop (defragPixel p) i m s = some s' ∧ s'.x ≤ 128 ∧
        128 * s'.y + s'.x = n + m ∧
        ∀ k, s'.rgb565.get k =
          if n ≤ k ∧ k < n + m then rgb565Convert (p.get (i + (k - n)))
          else s.rgb565.get k := by
  intro m
  induction m with
  | zero =>
    intro i s n hx hn _
    refine ⟨s, rfl, hx, hn, fun k => ?_⟩
    have : ¬ (n ≤ k ∧ k < n + 0) := by omega
    rw [if_neg this]
  | succ m ih =>
    intro i s n hx hn hlt
    obtain ⟨s1, h1, hx1, hn1, hb1⟩ := defragPixel_step p i s n hx hn (by omega)
    obtain ⟨s2, h2, hx2, hn2, hb2⟩ := ih (i + 1) s1 (n + 1) hx1 hn1 (by omega)
    have hh : forLoop (defragPixel p) i (m + 1) s = some s2 := by
      show (defragPixel p i s).bind (forLoop (defragPixel p) (i + 1) m) = some s2
      rw [h1, Option.some_bind]
      exact h2
    refine ⟨s2, hh, hx2, by omega, fun k => ?_⟩
    rw [hb2 k, hb1 k]
    by_cases hk : k = n
    · have h1 : ¬ (n + 1 ≤ k ∧ k < n + 1 + m) := by omega
      have h2 : n ≤ k ∧ k < n + (m + 1) := by omega
      rw [if_neg h1, if_pos hk, if_pos h2]
      congr 2
      omega
    · by_cases hr : n + 1 ≤ k ∧ k < n + 1 + m
      · have h2 : n ≤ k ∧ k < n + (m + 1) := by omega
        rw [if_pos hr, if_pos h2]
        congr 2
        omega
      · have h2 : ¬ (n ≤ k ∧ k < n + (m + 1)) := by omega
        rw [if_neg hr, if_neg h2, if_neg hk]

/-- The per-packet update in closed form, for a header whose column byte is at
most 128 and whose 30 pixels fit in the framebuffer. -/
theorem defragPacket_spec (fb : Framebuffer) (p : Packet) (hx : p.get 0 ≤ 128)
    (hb : 128 * p.get 1 + p.get 0 + 30 ≤ 20480) :
    ∃ fb', defragPacket fb p = some fb' ∧
      ∀ k, fb'.get k =
        if 128 * p.get 1 + p.get 0 ≤ k ∧ k < 128 * p.get 1 + p.get 0 + 30 then
          rgb565Convert (p.get (2 + (k - (128 * p.get 1 + p.get 0))))
        else fb.get k := by
  obtain ⟨s, h, _, _, hg⟩ := defragPixel_loop p 30 2
    { x := p.get 0, y := p.get 1, rgb565 := fb } (128 * p.get 1 + p.get 0) hx rfl hb
  have hh : defragPacket fb p = some s.rgb565 := by
    unfold defragPacket
    have h' : forLoop (defragPixel p) 2 (32 - 2)
        { x := p.get 0, y := p.get 1, rgb565 := fb } = some s := h
    rw [h', Option.map_some']
  exact ⟨s.rgb565, hh, hg⟩

/-! ### Fragmenting, then defragmenting -/

theorem getD_map_range (f : Nat → Nat) (n k : Nat) :
    ((List.range n).map f).getD k 0 = if k < n then f k else 0 := by
  by_cases hk : k < n
  · rw [if_pos hk, List.getD_eq_getElem?_getD, List.getElem?_map, List.getElem?_range hk]
    rfl
  · rw [if_neg hk, List.getD_eq_getElem?_getD, List.getElem?_eq_none (by simpa using hk)]
    rfl

theorem packetAt_frag (g : Frame) (j i : Nat) (hj : j < 682) (hi : i < 32) :
    (packetAt ((List.range 21824).map (fragByte g)) j).get i = fragByte g (32 * j + i) := by
  unfold packetAt
  rw [CArray.get_ofFn, if_pos hi, getD_map_range]
  have : 32 * j + i < 21824 := by omega
  rw [if_pos this]

theorem headerX_le (j : Nat) : headerX j ≤ 128 := by
  unfold headerX
  split <;> omega

theorem header_raster (j : Nat) : 128 * headerY j + headerX j = 30 * j := by
  unfold headerX headerY
  split <;> omega

theorem fragByte_header (g : Frame) (j : Nat) :
    fragByte g (32 * j + 0) = headerX j ∧ fragByte g (32 * j + 1) = headerY j := by
  unfold fragByte
  have h0 : (32 * j + 0) % 32 = 0 := by omega
  have h1 : (32 * j + 1) % 32 = 1 := by omega
  have h1' : ¬ (32 * j + 1) % 32 = 0 := by omega
  have d0 : (32 * j + 0) / 32 = j := by omega
  have d1 : (32 * j + 1) / 32 = j := by omega
  rw [if_pos h0, if_neg h1', if_pos h1, d0, d1]
  exact ⟨rfl, rfl⟩

theorem fragByte_payload (g : Frame) (j i : Nat) (hi : i < 30) :
    fragByte g (32 * j + (2 + i)) = g.get (30 * j + i) := by
  unfold fragByte
  have h0 : ¬ (32 * j + (2 + i)) % 32 = 0 := by omega
  have h1 : ¬ (32 * j + (2 + i)) % 32 = 1 := by omega
  have d0 : (32 * j + (2 + i)) / 32 = j := by omega
  rw [if_neg h0, if_neg h1, d0]
  congr 2
  omega

theorem defragPackets_frame (g : Frame) :
    ∀ (m j : Nat) (fb : Framebuffer), j + m ≤ 682 →
      ∃ fb', defragPackets
          ((List.range' j m).map (packetAt ((List.range 21824).map (fragByte g)))) fb
            = some fb' ∧
        ∀ k, fb'.get k =
          if 30 * j ≤ k ∧ k < 30 * (j + m) then rgb565Convert (g.get k) else fb.get k := by
  intro m
  induction m with
  | zero =>
    intro j fb _
    refine ⟨fb, rfl, fun k => ?_⟩
    have : ¬ (30 * j ≤ k ∧ k < 30 * (j + 0)) := by omega
    rw [if_neg this]
  | succ m ih =>
    intro j fb hj
    have hjlt : j < 682 := by omega
    have e0 := packetAt_frag g j 0 hjlt (by omega)
    have e1 := packetAt_frag g j 1 hjlt (by omega)
    rw [(fragByte_header g j).1] at e0
    rw [(fragByte_header g j).2] at e1
    have hr := header_raster j
    have hxle := headerX_le j
    obtain ⟨fb1, h1, hg1⟩ := defragPacket_spec fb
      (packetAt ((List.range 21824).map (fragByte g)) j)
      (by rw [e0]; exact hxle) (by rw [e0, e1]; omega)
    obtain ⟨fb2, h2, hg2⟩ := ih (j + 1) fb1 (by omega)
    have hh : defragPackets
        ((List.range' j (m + 1)).map (packetAt ((List.range 21824).map (fragByte g)))) fb
          = some fb2 := by
      rw [List.range'_succ, List.map_cons]
      show (defragPacket fb _).bind _ = some fb2
      rw [h1, Option.some_bind]
      exact h2
    refine ⟨fb2, hh, fun k => ?_⟩
    rw [hg2 k, hg1 k, e0, e1, hr]
    by_cases hk : 30 * (j + 1) ≤ k ∧ k < 30 * (j + 1 + m)
    · have h2 : 30 * j ≤ k ∧ k < 30 * (j + (m + 1)) := by omega
      rw [if_pos hk, if_pos h2]
    · rw [if_neg hk]
      by_cases hq : 30 * j ≤ k ∧ k < 30 * j + 30
      · have h2 : 30 * j ≤ k ∧ k < 30 * (j + (m + 1)) := by omega
        rw [if_pos hq, if_pos h2]
        have e := packetAt_frag g j (2 + (k - 30 * j)) hjlt (by omega)
        have ek : 30 * j + (k - 30 * j) = k := by omega
        rw [e, fragByte_payload g j (k - 30 * j) (by omega), ek]
      · have h2 : ¬ (30 * j ≤ k ∧ k < 30 * (j + (m + 1))) := by omega
        rw [if_neg hq, if_neg h2]

/-- Fragmenting a frame and defragmenting its 682 packets in order, in closed
form on the flat framebuffer. -/
theorem roundTrip_flat (prev : FragState) (g : Frame) (fb0 : Framebuffer) :
    ∃ out fb, fragmenterOutput prev g = some out ∧
      defragPackets (framePackets out) fb0 = some fb ∧
      ∀ k, fb.get k = if k < 20460 then rgb565Convert (g.get k) else fb0.get k := by
  obtain ⟨fb, h, hg⟩ := defragPackets_frame g 682 0 fb0 (by omega)
  refine ⟨_, fb, fragmenterOutput_eq prev g, ?_, fun k => ?_⟩
  · unfold framePackets
    have hr : List.range 682 = List.range' 0 682 := List.range_eq_range' 682
    rw [hr]
    exact h
  · rw [hg k]
    by_cases hk : k < 20460
    · have : 30 * 0 ≤ k ∧ k < 30 * (0 + 682) := by omega
      rw [if_pos this, if_pos hk]
    · have : ¬ (30 * 0 ≤ k ∧ k < 30 * (0 + 682)) := by omega
      rw [if_neg this, if_neg hk]

/-! ### Round trip and packet layout (C1 to C4) -/

theorem at2_raster (a : CArray (HEIGHT * WIDTH)) (k : Nat) :
    at2 a (k / 128) (k % 128) = a.get k := by
  unfold at2 WIDTH
  congr 1
  omega

theorem getElem?_map_range (f : Nat → Nat) (n k : Nat) (hk : k < n) :
    ((List.range n).map f)[k]? = some (f k) := by
  rw [List.getElem?_map, List.getElem?_range hk]
  rfl

theorem mod64_of_mul15 (j : Nat) (h : (15 * j) % 64 = 0) : j % 64 = 0 := by
  have hd : 64 ∣ 15 * j := Nat.dvd_of_mod_eq_zero h
  have hc : Nat.Coprime 64 15 := by decide
  exact Nat.mod_eq_zero_of_dvd (hc.dvd_of_dvd_mul_left hd)

theorem mod128_mul30 (j : Nat) : (30 * j) % 128 = 0 ↔ j % 64 = 0 := by
  constructor
  · intro h
    exact mod64_of_mul15 j (by omega)
  · intro h
    omega

/-- C1. Round trip: for every frame, every state the fragmenter's loop was
left in and every initial framebuffer `fb0`, the fragmenter emits an output,
the defragmenter's per-packet update accepts its 682 packets in order, and in
the resulting framebuffer every raster index `k < 20460` holds the RGB565
conversion of the frame sample at `k`, while every `k` with
`20460 ≤ k < 20480` still holds the value of `fb0`. -/
theorem roundTrip (prev : FragState) (grayscale : Frame) (fb0 : Framebuffer) :
    ∃ out fb, fragmenterOutput prev grayscale = some out ∧
      defragPackets (framePackets out) fb0 = some fb ∧
      ∀ k,
        (k < 20460 →
          at2 fb (k / 128) (k % 128) = rgb565Convert (at2 grayscale (k / 128) (k % 128))) ∧
        (20460 ≤ k → k < 20480 → at2 fb (k / 128) (k % 128) = at2 fb0 (k / 128) (k % 128)) := by
  obtain ⟨out, fb, h1, h2, hg⟩ := roundTrip_flat prev grayscale fb0
  refine ⟨out, fb, h1, h2, fun k => ⟨fun hk => ?_, fun hk _ => ?_⟩⟩
  · rw [at2_raster, at2_raster, hg k, if_pos hk]
  · have : ¬ k < 20460 := by omega
    rw [at2_raster, at2_raster, hg k, if_neg this]

/-- C2. Fragmenter payload positions: for every frame the output is exactly
`682 * 32 = 21824` bytes, and for every packet index `j < 682` and payload
position `i < 30`, output byte `32 * j + 2 + i` is the frame sample at raster
index `30 * j + i`, that is row `(30 * j + i) / 128`, column
`(30 * j + i) % 128`. -/
theorem fragmenter_payload_positions (prev : FragState) (grayscale : Frame) :
    ∃ out, fragmenterOutput prev grayscale = some out ∧ out.length = 682 * 32 ∧
      out.length = 21824 ∧
      ∀ j i, j < 682 → i < 30 →
        out[32 * j + 2 + i]? =
          some (at2 grayscale ((30 * j + i) / 128) ((30 * j + i) % 128)) := by
  refine ⟨_, fragmenterOutput_eq prev grayscale, by simp, by simp, fun j i hj hi => ?_⟩
  rw [getElem?_map_range _ _ _ (by omega), at2_raster]
  have : 32 * j + 2 + i = 32 * j + (2 + i) := by omega
  rw [this, fragByte_payload grayscale j i hi]

/-- C3, as stated, fails at packet 64 of the all-black frame: its header is
`(128, 14)`, not `((30 * 64) % 128, (30 * 64) / 128) = (0, 15)`. -/
theorem packet_origin_counterexample :
    ∃ out, fragmenterOutput zeroFragState zeroFrame = some out ∧
      out[32 * 64]? = some 128 ∧ out[32 * 64 + 1]? = some 14 ∧
      ¬ (out[32 * 64]? = some ((30 * 64) % 128) ∧ out[32 * 64 + 1]? = some ((30 * 64) / 128)) := by
  refine ⟨_, fragmenterOutput_eq zeroFragState zeroFrame, ?_, ?_, ?_⟩
  · rw [getElem?_map_range _ _ _ (by omega), (fragByte_header zeroFrame 64).1]
    rfl
  · rw [getElem?_map_range _ _ _ (by omega), (fragByte_header zeroFrame 64).2]
    rfl
  · rw [getElem?_map_range _ _ _ (by omega), (fragByte_header zeroFrame 64).1]
    intro h
    have h1 := h.1
    simp [headerX] at h1

/-- C3, amended. For every frame and every packet index `j < 682`, the header
`(origin_x, origin_y)` satisfies `origin_x ≤ 128` and
`128 * origin_y + origin_x = 30 * j`, and payload byte 0 is the frame sample at
raster index `30 * j`, row `(30 * j) / 128`, column `(30 * j) % 128`. The
header equals `((30 * j) % 128, (30 * j) / 128)` for every `j` that is not a
positive multiple of 64; for a positive multiple of 64 it is
`(128, (30 * j) / 128 - 1)`. -/
theorem packet_origin (prev : FragState) (grayscale : Frame) :
    ∃ out, fragmenterOutput prev grayscale = some out ∧
      ∀ j, j < 682 →
        ∃ ox oy, out[32 * j]? = some ox ∧ out[32 * j + 1]? = some oy ∧
          ox ≤ 128 ∧ 128 * oy + ox = 30 * j ∧
          out[32 * j + 2]? = some (at2 grayscale ((30 * j) / 128) ((30 * j) % 128)) ∧
          (¬ (0 < j ∧ j % 64 = 0) → ox = (30 * j) % 128 ∧ oy = (30 * j) / 128) ∧
          (0 < j ∧ j % 64 = 0 → ox = 128 ∧ oy = (30 * j) / 128 - 1) := by
  refine ⟨_, fragmenterOutput_eq prev grayscale, fun j hj => ?_⟩
  refine ⟨headerX j, headerY j, ?_, ?_, headerX_le j, header_raster j, ?_, ?_, ?_⟩
  · rw [getElem?_map_range _ _ _ (by omega), ← (fragByte_header grayscale j).1]
    rfl
  · rw [getElem?_map_range _ _ _ (by omega), (fragByte_header grayscale j).2]
  · rw [getElem?_map_range _ _ _ (by omega), at2_raster]
    have := fragByte_payload grayscale j 0 (by omega)
    rw [show 32 * j + 2 = 32 * j + (2 + 0) from rfl, this]
    rfl
  · intro h
    have hc := mod128_mul30 j
    unfold headerX headerY
    split <;> omega
  · intro h
    unfold headerX headerY
    split <;> omega

/-- C4, as stated, fails at packet 64 of the all-black frame: byte 0 of the
packet is 128, which is not below 128. -/
theorem origin_range_counterexample :
    ∃ out b, fragmenterOutput zeroFragState zeroFrame = some out ∧
      (out.drop (32 * 64))[0]? = some b ∧ ¬ b < 128 := by
  refine ⟨_, 128, fragmenterOutput_eq zeroFragState zeroFrame, ?_, by omega⟩
  rw [List.getElem?_drop, getElem?_map_range _ _ _ (by omega),
    (fragByte_header zeroFrame 64).1]
  rfl

/-- C4, amended. For every frame, every one of the 682 packets has
`origin_x ≤ 128` (byte 0 of the packet is at most 128); it is below 128 exactly
when the packet index is not a positive multiple of 64, and it is 128 for the
packets 64, 128, ..., 640. -/
theorem origin_range (prev : FragState) (grayscale : Frame) :
    ∃ out, fragmenterOutput prev grayscale = some out ∧
      ∀ j, j < 682 →
        ∃ b, (out.drop (32 * j))[0]? = some b ∧ b ≤ 128 ∧
          (b < 128 ↔ ¬ (0 < j ∧ j % 64 = 0)) ∧ (b = 128 ↔ (0 < j ∧ j % 64 = 0)) := by
  refine ⟨_, fragmenterOutput_eq prev grayscale, fun j hj => ?_⟩
  refine ⟨headerX j, ?_, headerX_le j, ?_, ?_⟩
  · rw [List.getElem?_drop, getElem?_map_range _ _ _ (by omega),
      (fragByte_header grayscale j).1]
  · have hc := mod128_mul30 j
    unfold headerX
    split <;> omega
  · have hc := mod128_mul30 j
    unfold headerX
    split <;> omega

/-! ### Single packet, frame isolation, dropped tail (C5, C7, C8) -/

/-- C5. Single-packet effect of the defragmenter: for every framebuffer and
every packet with `origin_x < 128` whose start `s = 128 * origin_y + origin_x`
satisfies `s + 30 ≤ 20480`, processing the packet succeeds, sets pixel `s + i`
to the RGB565 conversion of payload byte `i` for every `i < 30`, and leaves
every other pixel unchanged. -/
theorem defragPacket_effect (fb : Framebuffer) (fragment : Packet)
    (hx : fragment.get 0 < 128)
    (hs : 128 * fragment.get 1 + fragment.get 0 + 30 ≤ 20480) :
    ∃ fb', defragPacket fb fragment = some fb' ∧
      (∀ i, i < 30 →
        fb'.get (128 * fragment.get 1 + fragment.get 0 + i)
          = rgb565Convert (fragment.get (2 + i))) ∧
      (∀ k, ¬ (128 * fragment.get 1 + fragment.get 0 ≤ k ∧
            k < 128 * fragment.get 1 + fragment.get 0 + 30) →
        fb'.get k = fb.get k) := by
  obtain ⟨fb', h, hg⟩ := defragPacket_spec fb fragment (by omega) hs
  refine ⟨fb', h, fun i hi => ?_, fun k hk => ?_⟩
  · have hr : 128 * fragment.get 1 + fragment.get 0 ≤
        128 * fragment.get 1 + fragment.get 0 + i ∧
        128 * fragment.get 1 + fragment.get 0 + i <
          128 * fragment.get 1 + fragment.get 0 + 30 := by omega
    have he : 128 * fragment.get 1 + fragment.get 0 + i -
        (128 * fragment.get 1 + fragment.get 0) = i := by omega
    rw [hg, if_pos hr, he]
  · rw [hg, if_neg hk]

theorem examplePacket_get (i : Nat) :
    examplePacket.get i =
      if i < 32 then (if i < 2 then 0 else if i % 2 = 0 then 10 else 20) else 0 := by
  unfold examplePacket
  rw [CArray.get_ofFn]

/-- C5, the worked example: the packet `[0, 0, 10, 20, ..., 10, 20]` on the
zeroed framebuffer sets pixels `(0,0)..(29,0)` to 2113 and 4258 alternating and
leaves every other pixel 0. -/
theorem defragPacket_effect_witness :
    ∃ fb', defragPacket zeroFramebuffer examplePacket = some fb' ∧
      (∀ col, col < 30 → at2 fb' 0 col = if col % 2 = 0 then 2113 else 4258) ∧
      (∀ row col, row < 160 → col < 128 → ¬ (row = 0 ∧ col < 30) → at2 fb' row col = 0) := by
  have e0 : examplePacket.get 0 = 0 := by rw [examplePacket_get]; rfl
  have e1 : examplePacket.get 1 = 0 := by rw [examplePacket_get]; rfl
  obtain ⟨fb', h, hin, hout⟩ := defragPacket_effect zeroFramebuffer examplePacket
    (by rw [e0]; omega) (by rw [e0, e1]; omega)
  rw [e0, e1] at hin hout
  refine ⟨fb', h, fun col hc => ?_, fun row col hr hc hn => ?_⟩
  · have := hin col hc
    have hidx : 0 * WIDTH + col = 128 * 0 + 0 + col := by omega
    unfold at2
    rw [hidx, this, examplePacket_get, if_pos (by omega), if_neg (by omega)]
    by_cases hp : col % 2 = 0
    · have : (2 + col) % 2 = 0 := by omega
      rw [if_pos this, if_pos hp]
      rfl
    · have : ¬ (2 + col) % 2 = 0 := by omega
      rw [if_neg this, if_neg hp]
      rfl
  · have hk : ¬ (128 * 0 + 0 ≤ row * 128 + col ∧ row * 128 + col < 128 * 0 + 0 + 30) := by
      omega
    have := hout (row * 128 + col) hk
    unfold at2 WIDTH
    rw [this]
    unfold zeroFramebuffer
    rw [CArray.get_ofFn]
    split <;> rfl

/-- C7. Frame isolation: the output for a frame does not depend on the state
(cursor, write position, buffer contents) the previous iteration left; it is
21824 bytes and the first packet's header is `(0, 0)`. -/
theorem frame_isolation (prev1 prev2 : FragState) (grayscale : Frame) :
    fragmenterOutput prev1 grayscale = fragmenterOutput prev2 grayscale ∧
      ∃ out, fragmenterOutput prev1 grayscale = some out ∧ out.length = 21824 ∧
        out[0]? = some 0 ∧ out[1]? = some 0 := by
  refine ⟨by rw [fragmenterOutput_eq, fragmenterOutput_eq], _,
    fragmenterOutput_eq prev1 grayscale, by simp, ?_, ?_⟩
  · rw [getElem?_map_range _ _ _ (by omega)]
    rfl
  · rw [getElem?_map_range _ _ _ (by omega)]
    rfl

theorem fragByte_congr (g1 g2 : Frame) (h : ∀ k, k < 20460 → g1.get k = g2.get k)
    (k : Nat) (hk : k < 21824) : fragByte g1 k = fragByte g2 k := by
  unfold fragByte
  by_cases h0 : k % 32 = 0
  · rw [if_pos h0, if_pos h0]
  · rw [if_neg h0, if_neg h0]
    by_cases h1 : k % 32 = 1
    · rw [if_pos h1, if_pos h1]
    · rw [if_neg h1, if_neg h1]
      exact h _ (by omega)

/-- C8. Dropped tail: two frames that agree on their first 20460 samples in
raster order produce byte-identical 21824-byte outputs. -/
theorem dropped_tail (prev : FragState) (g1 g2 : Frame)
    (h : ∀ k, k < 20460 → at2 g1 (k / 128) (k % 128) = at2 g2 (k / 128) (k % 128)) :
    fragmenterOutput prev g1 = fragmenterOutput prev g2 ∧
      ∃ out, fragmenterOutput prev g1 = some out ∧ out.length = 21824 := by
  have h' : ∀ k, k < 20460 → g1.get k = g2.get k := by
    intro k hk
    have := h k hk
    rwa [at2_raster, at2_raster] at this
  refine ⟨?_, _, fragmenterOutput_eq prev g1, by simp⟩
  have hl : (List.range 21824).map (fragByte g1) = (List.range 21824).map (fragByte g2) :=
    List.map_congr_left fun k hk => fragByte_congr g1 g2 h' k (List.mem_range.mp hk)
  rw [fragmenterOutput_eq, fragmenterOutput_eq, hl]

/-- C8 at two frames that differ on every one of the last 20 samples. -/
theorem dropped_tail_witness :
    fragmenterOutput zeroFragState zeroFrame = fragmenterOutput zeroFragState tailFrame ∧
      at2 zeroFrame 159 108 = 0 ∧ at2 tailFrame 159 108 = 255 := by
  refine ⟨(dropped_tail zeroFragState zeroFrame tailFrame ?_).1, ?_, ?_⟩
  · intro k hk
    rw [at2_raster, at2_raster]
    unfold zeroFrame tailFrame
    rw [CArray.get_ofFn, CArray.get_ofFn]
    have : ¬ 20460 ≤ k := by omega
    rw [if_neg this]
  · unfold at2 zeroFrame
    rw [CArray.get_ofFn]
    rfl
  · unfold at2 tailFrame
    rw [CArray.get_ofFn]
    rfl

/-! ### Flush cadence (C6) -/

set_option maxRecDepth 100000 in
theorem rgb565Convert_fields :
    ∀ gray, gray < 256 →
      rgb565Convert gray = ((gray / 8) <<< 11) ||| ((gray / 4) <<< 5) ||| (gray / 8) ∧
      ((gray / 8) <<< 11) &&& ((gray / 4) <<< 5) = 0 ∧
      ((gray / 8) <<< 11) &&& (gray / 8) = 0 ∧
      ((gray / 4) <<< 5) &&& (gray / 8) = 0 ∧
      rgb565Convert gray >>> 11 = gray / 8 ∧
      (rgb565Convert gray >>> 5) &&& 63 = gray / 4 ∧
      rgb565Convert gray &&& 31 = gray / 8 := by
  decide

theorem components_eq (gray : Nat) (h : gray < 256) :
    red5 gray = gray / 8 ∧ green6 gray = gray / 4 ∧ blue5 gray = gray / 8 := by
  unfold red5 green6 blue5
  omega

/-- C9. Gray8 to RGB565 conversion: for every `gray` in 0..255 the stored
16-bit value is `((gray/8) << 11) | ((gray/4) << 5) | (gray/8)`, where
`r = gray/8 < 32`, `g = gray/4 < 64`, `b = gray/8 < 32`; the three fields are
pairwise disjoint, the value fits in 16 bits, and the fields are recovered by
`word >> 11`, `(word >> 5) & 63` and `word & 31`. -/
theorem rgb565_layout (gray : Nat) (h : gray < 256) :
    rgb565Convert gray = ((gray / 8) <<< 11) ||| ((gray / 4) <<< 5) ||| (gray / 8) ∧
      (red5 gray = gray / 8 ∧ green6 gray = gray / 4 ∧ blue5 gray = gray / 8) ∧
      (gray / 8 < 32 ∧ gray / 4 < 64) ∧
      (((gray / 8) <<< 11) &&& ((gray / 4) <<< 5) = 0 ∧
        ((gray / 8) <<< 11) &&& (gray / 8) = 0 ∧
        ((gray / 4) <<< 5) &&& (gray / 8) = 0) ∧
      ((red5 gray <<< 11) ||| (green6 gray <<< 5) ||| blue5 gray) < 65536 ∧
      rgb565Convert gray >>> 11 = gray / 8 ∧
      (rgb565Convert gray >>> 5) &&& 63 = gray / 4 ∧
      rgb565Convert gray &&& 31 = gray / 8 := by
  obtain ⟨h1, h2, h3, h4, h5, h6, h7⟩ := rgb565Convert_fields gray h
  have hc := components_eq gray h
  refine ⟨h1, hc, by omega, ⟨h2, h3, h4⟩, ?_, h5, h6, h7⟩
  rw [hc.1, hc.2.1, hc.2.2, ← h1]
  unfold rgb565Convert
  exact Nat.mod_lt _ (by omega)

/-- C9 at `gray = 200`: the stored word is 52825 = `(25 << 11) | (50 << 5) | 25`. -/
theorem rgb565_layout_witness :
    rgb565Convert 200 = 52825 ∧ rgb565Convert 200 >>> 11 = 25 ∧
      (rgb565Convert 200 >>> 5) &&& 63 = 50 ∧ rgb565Convert 200 &&& 31 = 25 := by
  have h := rgb565_layout 200 (by omega)
  exact ⟨h.1, h.2.2.2.2.2.1, h.2.2.2.2.2.2.1, h.2.2.2.2.2.2.2⟩

/-- C10. Quantization monotonicity: for all 8-bit values `v1 < v2`, the 4-bit
quantization satisfies `v1/16 ≤ v2/16`, and each of the `r`, `g`, `b`
components of the RGB565 conversion of `v1` is at most the corresponding
component for `v2`, both as computed and as stored in the 16-bit word. -/
theorem quantization_monotone (v1 v2 : Nat) (h : v1 < v2) (h2 : v2 < 256) :
    v1 / 16 ≤ v2 / 16 ∧ gray4 v1 ≤ gray4 v2 ∧
      red5 v1 ≤ red5 v2 ∧ green6 v1 ≤ green6 v2 ∧ blue5 v1 ≤ blue5 v2 ∧
      rgb565Convert v1 >>> 11 ≤ rgb565Convert v2 >>> 11 ∧
      (rgb565Convert v1 >>> 5) &&& 63 ≤ (rgb565Convert v2 >>> 5) &&& 63 ∧
      rgb565Convert v1 &&& 31 ≤ rgb565Convert v2 &&& 31 := by
  obtain ⟨_, _, _, _, a5, a6, a7⟩ := rgb565Convert_fields v1 (by omega)
  obtain ⟨_, _, _, _, b5, b6, b7⟩ := rgb565Convert_fields v2 h2
  rw [a5, a6, a7, b5, b6, b7]
  unfold gray4 red5 green6 blue5
  omega

/-- C10 at the quantization boundary `15 < 16`. -/
theorem quantization_monotone_witness :
    gray4 15 ≤ gray4 16 ∧ red5 15 ≤ red5 16 ∧ green6 15 ≤ green6 16 ∧
      blue5 15 ≤ blue5 16 := by
  have h := quantization_monotone 15 16 (by omega) (by omega)
  exact ⟨h.2.1, h.2.2.1, h.2.2.2.1, h.2.2.2.2.1⟩

/-! ### Depth packer (C11, C12) -/

set_option maxRecDepth 100000 in
theorem nibble_pack :
    ∀ h, h < 16 → ∀ l, l < 16 →
      (((h <<< 4) % 256) ||| l) % 256 = (h <<< 4) ||| l ∧ (h <<< 4) ||| l = 16 * h + l := by
  decide

theorem packPair_eq (a b : Nat) (ha : a < 256) (hb : b < 256) :
    packPair a b = ((a >>> 4) <<< 4) ||| (b >>> 4) ∧ packPair a b = 16 * (a / 16) + b / 16 := by
  have h1 : gray4 a = a / 16 := by unfold gray4; omega
  have h2 : gray4 b = b / 16 := by unfold gray4; omega
  have s1 : a >>> 4 = a / 16 := by rw [Nat.shiftRight_eq_div_pow]
  have s2 : b >>> 4 = b / 16 := by rw [Nat.shiftRight_eq_div_pow]
  obtain ⟨n1, n2⟩ := nibble_pack (a / 16) (by omega) (b / 16) (by omega)
  unfold packPair packOdd packEven
  rw [h1, h2, s1, s2, n1]
  exact ⟨rfl, n2⟩

theorem packStep_pair (y : Frame) (i k : Nat) (buf : Gray4Buffer) (hi : i < 160)
    (hk : k < 64) :
    ∃ b2, (packStep y i (2 * k) buf).bind (packStep y i (2 * k + 1)) = some b2 ∧
      ∀ idx, b2.get idx =
        if idx = 64 * i + k then packPair (at2 y i (2 * k)) (at2 y i (2 * k + 1))
        else buf.get idx := by
  have e1 : i * (WIDTH / 2) + (2 * k) / 2 = 64 * i + k := by unfold WIDTH; omega
  have e2 : i * (WIDTH / 2) + (2 * k + 1) / 2 = 64 * i + k := by unfold WIDTH; omega
  have c1 : i < HEIGHT ∧ 2 * k < WIDTH := by unfold HEIGHT WIDTH; omega
  have c2 : i < HEIGHT ∧ 2 * k + 1 < WIDTH := by unfold HEIGHT WIDTH; omega
  have p1 : ¬ (2 * k) &&& 1 ≠ 0 := by rw [Nat.and_one_is_mod]; omega
  have p2 : (2 * k + 1) &&& 1 ≠ 0 := by rw [Nat.and_one_is_mod]; omega
  have hlt : 64 * i + k < HEIGHT * (WIDTH / 2) := by unfold HEIGHT WIDTH; omega
  obtain ⟨b1, hb1, hg1⟩ := buf.store_spec (64 * i + k) (packEven (at2 y i (2 * k))) hlt
  obtain ⟨b2, hb2, hg2⟩ := b1.store_spec (64 * i + k)
    (packOdd (b1.get (64 * i + k)) (at2 y i (2 * k + 1))) hlt
  have s1 : packStep y i (2 * k) buf = some b1 := by
    unfold packStep
    rw [if_pos c1, if_neg p1, e1]
    exact hb1
  have s2 : packStep y i (2 * k + 1) b1 = some b2 := by
    unfold packStep
    rw [if_pos c2, if_pos p2, e2]
    exact hb2
  refine ⟨b2, by rw [s1, Option.some_bind, s2], fun idx => ?_⟩
  rw [hg2 idx]
  by_cases h : idx = 64 * i + k
  · rw [if_pos h, if_pos h, hg1 (64 * i + k), if_pos rfl]
    rfl
  · rw [if_neg h, if_neg h, hg1 idx, if_neg h]

theorem packRow_loop (y : Frame) (i : Nat) (hi : i < 160) :
    ∀ (m k : Nat) (buf : Gray4Buffer), k + m ≤ 64 →
      ∃ b, forLoop (packStep y i) (2 * k) (2 * m) buf = some b ∧
        ∀ idx, b.get idx =
          if 64 * i + k ≤ idx ∧ idx < 64 * i + k + m then packedByte y idx
          else buf.get idx := by
  intro m
  induction m with
  | zero =>
    intro k buf _
    refine ⟨buf, rfl, fun idx => ?_⟩
    have : ¬ (64 * i + k ≤ idx ∧ idx < 64 * i + k + 0) := by omega
    rw [if_neg this]
  | succ m ih =>
    intro k buf hk
    obtain ⟨b1, h1, hg1⟩ := packStep_pair y i k buf hi (by omega)
    obtain ⟨b2, h2, hg2⟩ := ih (k + 1) b1 (by omega)
    have hh : forLoop (packStep y i) (2 * k) (2 * (m + 1)) buf = some b2 := by
      show ((packStep y i (2 * k) buf).bind fun s =>
        (packStep y i (2 * k + 1) s).bind (forLoop (packStep y i) (2 * k + 1 + 1) (2 * m)))
          = some b2
      cases hs : packStep y i (2 * k) buf with
      | none => rw [hs] at h1; exact absurd h1 (by simp)
      | some s =>
        rw [hs, Option.some_bind] at h1
        rw [Option.some_bind, h1, Option.some_bind]
        exact h2
    refine ⟨b2, hh, fun idx => ?_⟩
    rw [hg2 idx, hg1 idx]
    by_cases hr : 64 * i + (k + 1) ≤ idx ∧ idx < 64 * i + (k + 1) + m
    · have h2 : 64 * i + k ≤ idx ∧ idx < 64 * i + k + (m + 1) := by omega
      rw [if_pos hr, if_pos h2]
    · rw [if_neg hr]
      by_cases h0 : idx = 64 * i + k
      · have h2 : 64 * i + k ≤ idx ∧ idx < 64 * i + k + (m + 1) := by omega
        have d1 : idx / 64 = i := by omega
        have d2 : idx % 64 = k := by omega
        rw [if_pos h0, if_pos h2]
        unfold packedByte
        rw [d1, d2]
      · have h2 : ¬ (64 * i + k ≤ idx ∧ idx < 64 * i + k + (m + 1)) := by omega
        rw [if_neg h0, if_neg h2]

theorem packRow_spec (y : Frame) (i : Nat) (hi : i < 160) (buf : Gray4Buffer) :
    ∃ b, packRow y i buf = some b ∧
      ∀ idx, b.get idx =
        if 64 * i ≤ idx ∧ idx < 64 * i + 64 then packedByte y idx else buf.get idx := by
  obtain ⟨b, h, hg⟩ := packRow_loop y i hi 64 0 buf (by omega)
  exact ⟨b, h, hg⟩

theorem depthPack_loop (y : Frame) :
    ∀ (m i : Nat) (buf : Gray4Buffer), i + m ≤ 160 →
      ∃ b, forLoop (packRow y) i m buf = some b ∧
        ∀ idx, b.get idx =
          if 64 * i ≤ idx ∧ idx < 64 * (i + m) then packedByte y idx else buf.get idx := by
  intro m
  induction m with
  | zero =>
    intro i buf _
    refine ⟨buf, rfl, fun idx => ?_⟩
    have : ¬ (64 * i ≤ idx ∧ idx < 64 * (i + 0)) := by omega
    rw [if_neg this]
  | succ m ih =>
    intro i buf hi
    obtain ⟨b1, h1, hg1⟩ := packRow_spec y i (by omega) buf
    obtain ⟨b2, h2, hg2⟩ := ih (i + 1) b1 (by omega)
    have hh : forLoop (packRow y) i (m + 1) buf = some b2 := by
      show (packRow y i buf).bind (forLoop (packRow y) (i + 1) m) = some b2
      rw [h1, Option.some_bind]
      exact h2
    refine ⟨b2, hh, fun idx => ?_⟩
    rw [hg2 idx, hg1 idx]
    by_cases hr : 64 * (i + 1) ≤ idx ∧ idx < 64 * (i + 1 + m)
    · have h2 : 64 * i ≤ idx ∧ idx < 64 * (i + (m + 1)) := by omega
      rw [if_pos hr, if_pos h2]
    · rw [if_neg hr]
      by_cases h0 : 64 * i ≤ idx ∧ idx < 64 * i + 64
      · have h2 : 64 * i ≤ idx ∧ idx < 64 * (i + (m + 1)) := by omega
        rw [if_pos h0, if_pos h2]
      · have h2 : ¬ (64 * i ≤ idx ∧ idx < 64 * (i + (m + 1))) := by omega
        rw [if_neg h0, if_neg h2]

/-- The conversion pass in closed form: it always completes and byte `idx` of
the buffer is `packedByte y idx`, for any previous buffer contents. -/
theorem depthPack_spec (prev : Gray4Buffer) (y : Frame) :
    ∃ out, depthPack prev y = some out ∧
      ∀ idx, idx < 10240 → out.get idx = packedByte y idx := by
  obtain ⟨b, h, hg⟩ := depthPack_loop y 160 0 prev (by omega)
  refine ⟨b, h, fun idx hidx => ?_⟩
  have : 64 * 0 ≤ idx ∧ idx < 64 * (0 + 160) := by omega
  rw [hg idx, if_pos this]
theorem rampFrame_at2 (i j : Nat) : at2 rampFrame i j < 256 := by
  unfold at2 rampFrame
  rw [CArray.get_ofFn]
  split <;> omega

/-- C11. Depth packer output: for every frame of 8-bit samples and every prior
content of the output buffer, one conversion pass completes and leaves, at
row `i < 160` and byte column `k < 64`, the byte
`((y[i][2k] >> 4) << 4) | (y[i][2k+1] >> 4)`; the result is the same buffer
whatever the prior content was. -/
theorem depth_packer_output (prev : Gray4Buffer) (y : Frame)
    (hy : ∀ i j, i < 160 → j < 128 → at2 y i j < 256) :
    ∃ out, depthPack prev y = some out ∧
      (∀ i k, i < 160 → k < 64 →
        out.get (i * (WIDTH / 2) + k)
          = ((at2 y i (2 * k) >>> 4) <<< 4) ||| (at2 y i (2 * k + 1) >>> 4)) ∧
      ∀ prev2, depthPack prev2 y = some out := by
  obtain ⟨out, h, hg⟩ := depthPack_spec prev y
  refine ⟨out, h, fun i k hi hk => ?_, fun prev2 => ?_⟩
  · have e : i * (WIDTH / 2) + k = 64 * i + k := by unfold WIDTH; omega
    have d1 : (64 * i + k) / 64 = i := by omega
    have d2 : (64 * i + k) % 64 = k := by omega
    rw [e, hg _ (by omega)]
    unfold packedByte
    rw [d1, d2]
    exact (packPair_eq _ _ (hy i (2 * k) hi (by omega)) (hy i (2 * k + 1) hi (by omega))).1
  · obtain ⟨out2, h2, hg2⟩ := depthPack_spec prev2 y
    have : out2 = out := by
      apply CArray.ext_get
      intro idx hidx
      have hlt : idx < 10240 := by unfold HEIGHT WIDTH at hidx; omega
      rw [hg idx hlt, hg2 idx hlt]
    rw [h2, this]

/-- C11 on the ramp frame, starting from a buffer with every bit set: the byte
for columns 16 and 17 of row 0 is `0x11`. -/
theorem depth_packer_output_witness :
    ∃ out, depthPack onesGray4 rampFrame = some out ∧ out.get (0 * (WIDTH / 2) + 8) = 17 := by
  obtain ⟨out, h, hg, _⟩ := depth_packer_output onesGray4 rampFrame
    (fun i j _ _ => rampFrame_at2 i j)
  refine ⟨out, h, ?_⟩
  rw [hg 0 8 (by omega) (by omega)]
  have a1 : at2 rampFrame 0 (2 * 8) = 16 := by
    unfold at2 rampFrame
    rw [CArray.get_ofFn]
    rfl
  have a2 : at2 rampFrame 0 (2 * 8 + 1) = 17 := by
    unfold at2 rampFrame
    rw [CArray.get_ofFn]
    rfl
  rw [a1, a2]
  rfl

/-- C12. Packing order sensitivity: for 8-bit samples `a` and `b`, the byte
packed for the pair `(a, b)` equals the byte packed for `(b, a)` if and only if
`a >> 4 = b >> 4`. -/
theorem packing_order (a b : Nat) (ha : a < 256) (hb : b < 256) :
    packPair a b = packPair b a ↔ a >>> 4 = b >>> 4 := by
  rw [(packPair_eq a b ha hb).2, (packPair_eq b a hb ha).2,
    Nat.shiftRight_eq_div_pow, Nat.shiftRight_eq_div_pow]
  have : (2 : Nat) ^ 4 = 16 := rfl
  rw [this]
  omega

/-- C12 at `(0x12, 0x1f)`, which share the high nibble, and at `(0x12, 0xc8)`,
which do not. -/
theorem packing_order_witness :
    packPair 18 31 = packPair 31 18 ∧ ¬ packPair 18 200 = packPair 200 18 :=
  ⟨(packing_order 18 31 (by omega) (by omega)).mpr (by decide),
    fun h => absurd ((packing_order 18 200 (by omega) (by omega)).mp h) (by decide)⟩

/-! ### The header as the cursor before the wrap test (C13) -/

/-- C13. Header is the pre-wrap cursor: for every frame, the header of packet 0
is `(0, 0)` and for every `1 ≤ j < 682` the header of packet `j` is
`(((30 * j - 1) % 128) + 1, (30 * j - 1) / 128)`. It differs from the
coordinate `((30 * j) % 128, (30 * j) / 128)` of the first payload sample
exactly when `30 * j` is a multiple of 128, that is for `j` in
`{64, 128, ..., 640}`, where the header is `(128, (30 * j) / 128 - 1)`. -/
theorem header_prewrap (prev : FragState) (grayscale : Frame) :
    ∃ out, fragmenterOutput prev grayscale = some out ∧
      out[0]? = some 0 ∧ out[1]? = some 0 ∧
      ∀ j, 1 ≤ j → j < 682 →
        out[32 * j]? = some ((30 * j - 1) % 128 + 1) ∧
        out[32 * j + 1]? = some ((30 * j - 1) / 128) ∧
        (((30 * j - 1) % 128 + 1, (30 * j - 1) / 128) ≠ ((30 * j) % 128, (30 * j) / 128)
          ↔ (30 * j) % 128 = 0) ∧
        ((30 * j) % 128 = 0 ↔ ∃ m, 1 ≤ m ∧ m ≤ 10 ∧ j = 64 * m) ∧
        ((30 * j) % 128 = 0 →
          (30 * j - 1) % 128 + 1 = 128 ∧ (30 * j - 1) / 128 = (30 * j) / 128 - 1) := by
  refine ⟨_, fragmenterOutput_eq prev grayscale, ?_, ?_, fun j h1 hj => ⟨?_, ?_, ?_, ?_, ?_⟩⟩
  · rw [getElem?_map_range _ _ _ (by omega)]
    rfl
  · rw [getElem?_map_range _ _ _ (by omega)]
    rfl
  · have hx : headerX j = (30 * j - 1) % 128 + 1 := by
      unfold headerX
      rw [if_neg (show ¬ j = 0 by omega)]
    rw [getElem?_map_range _ _ _ (by omega), ← hx, ← (fragByte_header grayscale j).1]
    rfl
  · rw [getElem?_map_range _ _ _ (by omega), (fragByte_header grayscale j).2]
    rfl
  · rw [Ne, Prod.mk.injEq]
    omega
  · have hc := mod128_mul30 j
    constructor
    · intro h
      exact ⟨j / 64, by omega, by omega, by omega⟩
    · rintro ⟨m, _, _, rfl⟩
      omega
  · intro h
    omega

/-! ### Loops -/

theorem forLoop_congr {σ : Type} (b1 b2 : Nat → σ → Option σ) :
    ∀ (n i : Nat) (s : σ), (∀ k t, i ≤ k → k < i + n → b1 k t = b2 k t) →
      forLoop b1 i n s = forLoop b2 i n s := by
  intro n
  induction n with
  | zero => intro i s _; rfl
  | succ n ih =>
    intro i s h
    show (b1 i s).bind (forLoop b1 (i + 1) n) = (b2 i s).bind (forLoop b2 (i + 1) n)
    rw [h i s (Nat.le_refl i) (by omega)]
    cases b2 i s with
    | none => rfl
    | some t =>
      rw [Option.some_bind, Option.some_bind]
      exact ih (i + 1) t (fun k u hk1 hk2 => h k u (by omega) (by omega))

theorem forLoop_add {σ : Type} (b : Nat → σ → Option σ) :
    ∀ (a c i : Nat) (s : σ),
      forLoop b i (a + c) s = (forLoop b i a s).bind (forLoop b (i + a) c) := by
  intro a
  induction a with
  | zero =>
    intro c i s
    rw [Nat.zero_add]
    rfl
  | succ a ih =>
    intro c i s
    have e : a + 1 + c = (a + c) + 1 := by omega
    rw [e]
    show (b i s).bind (forLoop b (i + 1) (a + c)) =
      ((b i s).bind (forLoop b (i + 1) a)).bind (forLoop b (i + (a + 1)) c)
    cases b i s with
    | none => rfl
    | some t =>
      rw [Option.some_bind, Option.some_bind, ih c (i + 1) t]
      have e2 : i + 1 + a = i + (a + 1) := by omega
      rw [e2]

theorem forLoop_fail {σ : Type} (b : Nat → σ → Option σ) (i n m : Nat) (s0 s : σ)
    (hm : m < n) (h1 : forLoop b i m s0 = some s) (h2 : b (i + m) s = none) :
    forLoop b i n s0 = none := by
  have e : n = m + ((n - m - 1) + 1) := by omega
  rw [e, forLoop_add, h1, Option.some_bind]
  show (b (i + m) s).bind _ = none
  rw [h2]
  rfl

/-! ### Origins outside the frame (C14, C16) -/

theorem withOrigin_get (p : Packet) (ox oy i : Nat) :
    (withOrigin p ox oy).get i = if i = 0 then ox else if i = 1 then oy else p.get i := by
  unfold withOrigin
  rw [CArray.get_ofFn]
  by_cases hi : i < 32
  · rw [if_pos hi]
  · rw [if_neg hi, if_neg (show ¬ i = 0 by omega), if_neg (show ¬ i = 1 by omega),
      CArray.get_of_le p i (by omega)]

theorem defragPixel_congr (p q : Packet) (i : Nat) (s : DefragCursor)
    (h : p.get i = q.get i) : defragPixel p i s = defragPixel q i s := by
  unfold defragPixel
  rw [h]

theorem defragPixel_wrap (p : Packet) (i x y : Nat) (fb : Framebuffer) (hx : x ≥ 128) :
    defragPixel p i { x := x, y := y, rgb565 := fb } =
      defragPixel p i { x := 0, y := (y + 1) % 256, rgb565 := fb } := by
  have h1 : x ≥ WIDTH := hx
  have h2 : ¬ (0 ≥ WIDTH) := by unfold WIDTH; omega
  simp only [defragPixel, if_pos h1, if_neg h2]

theorem defragLoop_wrap (p : Packet) (i n x y : Nat) (fb : Framebuffer) (hx : x ≥ 128) :
    forLoop (defragPixel p) i (n + 1) { x := x, y := y, rgb565 := fb } =
      forLoop (defragPixel p) i (n + 1) { x := 0, y := (y + 1) % 256, rgb565 := fb } := by
  show (defragPixel p i _).bind _ = (defragPixel p i _).bind _
  rw [defragPixel_wrap p i x y fb hx]

theorem defragPixel_none (p : Packet) (i : Nat) (s : DefragCursor)
    (h : (if s.x ≥ WIDTH then (s.y + 1) % 256 else s.y) ≥ HEIGHT) :
    defragPixel p i s = none := by
  have hc : ¬ ((if s.x ≥ WIDTH then (s.y + 1) % 256 else s.y) < HEIGHT ∧
      (if s.x ≥ WIDTH then 0 else s.x) < WIDTH) := by omega
  simp only [defragPixel, if_neg hc]

theorem defragLoop_fail (p : Packet) (fb : Framebuffer) (x y : Nat) (hx : x < 128)
    (hnf : ¬ 128 * y + x + 30 ≤ 20480) :
    ∃ m s, m < 30 ∧
      forLoop (defragPixel p) 2 m { x := x, y := y, rgb565 := fb } = some s ∧
      defragPixel p (2 + m) s = none ∧
      (if s.x ≥ WIDTH then (s.y + 1) % 256 else s.y) ≥ HEIGHT ∧
      (if s.x ≥ WIDTH then 0 else s.x) < WIDTH := by
  by_cases hy : y ≥ 160
  · have hrow : (if x ≥ WIDTH then (y + 1) % 256 else y) ≥ HEIGHT := by
      unfold WIDTH HEIGHT
      rw [if_neg (by omega)]
      exact hy
    refine ⟨0, { x := x, y := y, rgb565 := fb }, by omega, rfl,
      defragPixel_none p _ _ hrow, hrow, ?_⟩
    show (if x ≥ WIDTH then 0 else x) < WIDTH
    unfold WIDTH
    rw [if_neg (by omega)]
    exact hx
  · obtain ⟨s, h, hsx, hsn, _⟩ := defragPixel_loop p (20480 - (128 * y + x)) 2
      { x := x, y := y, rgb565 := fb } (128 * y + x) (by show x ≤ 128; omega) rfl (by omega)
    have hrow : (if s.x ≥ WIDTH then (s.y + 1) % 256 else s.y) ≥ HEIGHT := by
      unfold WIDTH HEIGHT
      split <;> omega
    refine ⟨20480 - (128 * y + x), s, by omega, h, defragPixel_none p _ _ hrow, hrow, ?_⟩
    unfold WIDTH
    split <;> omega
theorem defragPacket_wrap (fb : Framebuffer) (p : Packet) (hx : p.get 0 ≥ 128) :
    defragPacket fb p = defragPacket fb (withOrigin p 0 ((p.get 1 + 1) % 256)) := by
  have hq0 : (withOrigin p 0 ((p.get 1 + 1) % 256)).get 0 = 0 := by
    rw [withOrigin_get, if_pos rfl]
  have hq1 : (withOrigin p 0 ((p.get 1 + 1) % 256)).get 1 = (p.get 1 + 1) % 256 := by
    rw [withOrigin_get, if_neg (by omega), if_pos rfl]
  have c := forLoop_congr (defragPixel p)
    (defragPixel (withOrigin p 0 ((p.get 1 + 1) % 256))) 30 2
    { x := 0, y := (p.get 1 + 1) % 256, rgb565 := fb }
    (fun k t hk1 _ => defragPixel_congr p _ k t (by
      rw [withOrigin_get, if_neg (show ¬ k = 0 by omega), if_neg (show ¬ k = 1 by omega)]))
  have w := defragLoop_wrap p 2 29 (p.get 0) (p.get 1) fb hx
  have hloop : forLoop (defragPixel p) 2 (32 - 2)
      { x := p.get 0, y := p.get 1, rgb565 := fb } =
      forLoop (defragPixel (withOrigin p 0 ((p.get 1 + 1) % 256))) 2 (32 - 2)
        { x := 0, y := (p.get 1 + 1) % 256, rgb565 := fb } := w.trans c
  unfold defragPacket
  rw [hq0, hq1, hloop]

theorem defragPacket_fits (fb : Framebuffer) (p : Packet)
    (hfit : 128 * (wrapOrigin (p.get 0) (p.get 1)).2 + (wrapOrigin (p.get 0) (p.get 1)).1 + 30
      ≤ 20480) :
    ∃ fb', defragPacket fb p = some fb' := by
  by_cases hx : p.get 0 ≥ 128
  · have hw : wrapOrigin (p.get 0) (p.get 1) = (0, (p.get 1 + 1) % 256) := by
      unfold wrapOrigin WIDTH
      rw [if_pos hx]
    rw [hw] at hfit
    have hq0 : (withOrigin p 0 ((p.get 1 + 1) % 256)).get 0 = 0 := by
      rw [withOrigin_get, if_pos rfl]
    have hq1 : (withOrigin p 0 ((p.get 1 + 1) % 256)).get 1 = (p.get 1 + 1) % 256 := by
      rw [withOrigin_get, if_neg (by omega), if_pos rfl]
    obtain ⟨fb', h, _⟩ := defragPacket_spec fb (withOrigin p 0 ((p.get 1 + 1) % 256))
      (by rw [hq0]; omega) (by rw [hq0, hq1]; exact hfit)
    exact ⟨fb', by rw [defragPacket_wrap fb p hx]; exact h⟩
  · have hw : wrapOrigin (p.get 0) (p.get 1) = (p.get 0, p.get 1) := by
      unfold wrapOrigin WIDTH
      rw [if_neg hx]
    rw [hw] at hfit
    obtain ⟨fb', h, _⟩ := defragPacket_spec fb p (by omega) hfit
    exact ⟨fb', h⟩

theorem defragPacket_overrun (fb : Framebuffer) (p : Packet)
    (hnf : ¬ 128 * (wrapOrigin (p.get 0) (p.get 1)).2 + (wrapOrigin (p.get 0) (p.get 1)).1 + 30
      ≤ 20480) :
    defragPacket fb p = none ∧
      ∃ m s, m < 30 ∧
        forLoop (defragPixel p) 2 m { x := p.get 0, y := p.get 1, rgb565 := fb } = some s ∧
        defragPixel p (2 + m) s = none ∧
        (if s.x ≥ WIDTH then (s.y + 1) % 256 else s.y) ≥ HEIGHT ∧
        (if s.x ≥ WIDTH then 0 else s.x) < WIDTH := by
  have key : ∃ m s, m < 30 ∧
      forLoop (defragPixel p) 2 m { x := p.get 0, y := p.get 1, rgb565 := fb } = some s ∧
      defragPixel p (2 + m) s = none ∧
      (if s.x ≥ WIDTH then (s.y + 1) % 256 else s.y) ≥ HEIGHT ∧
      (if s.x ≥ WIDTH then 0 else s.x) < WIDTH := by
    by_cases hx : p.get 0 ≥ 128
    · have hw : wrapOrigin (p.get 0) (p.get 1) = (0, (p.get 1 + 1) % 256) := by
        unfold wrapOrigin WIDTH
        rw [if_pos hx]
      rw [hw] at hnf
      have hrow : (if p.get 0 ≥ WIDTH then (p.get 1 + 1) % 256 else p.get 1) ≥ HEIGHT := by
        unfold WIDTH HEIGHT
        rw [if_pos hx]
        omega
      refine ⟨0, { x := p.get 0, y := p.get 1, rgb565 := fb }, by omega, rfl,
        defragPixel_none p _ _ hrow, hrow, ?_⟩
      show (if p.get 0 ≥ WIDTH then 0 else p.get 0) < WIDTH
      unfold WIDTH
      rw [if_pos hx]
      omega
    · have hw : wrapOrigin (p.get 0) (p.get 1) = (p.get 0, p.get 1) := by
        unfold wrapOrigin WIDTH
        rw [if_neg hx]
      rw [hw] at hnf
      exact defragLoop_fail p fb (p.get 0) (p.get 1) (by omega) hnf
  refine ⟨?_, key⟩
  obtain ⟨m, s, hm, h1, h2, _, _⟩ := key
  have hloop : forLoop (defragPixel p) 2 (32 - 2)
      { x := p.get 0, y := p.get 1, rgb565 := fb } = none :=
    forLoop_fail (defragPixel p) 2 30 m _ s hm h1 h2
  unfold defragPacket
  rw [hloop]
  rfl

/-- C14. Out-of-range origin column wraps: for every framebuffer and every
packet with `origin_x ≥ 128`, the per-packet update is the one of the packet
with the same payload and origin `(0, (origin_y + 1) % 256)`; in particular the
packet is processed whenever that row is inside the frame. -/
theorem origin_wrap (fb : Framebuffer) (fragment : Packet) (hx : fragment.get 0 ≥ 128) :
    defragPacket fb fragment =
        defragPacket fb (withOrigin fragment 0 ((fragment.get 1 + 1) % 256)) ∧
      ((fragment.get 1 + 1) % 256 < 160 → ∃ fb', defragPacket fb fragment = some fb') := by
  refine ⟨defragPacket_wrap fb fragment hx, fun hrow => ?_⟩
  apply defragPacket_fits
  have hw : wrapOrigin (fragment.get 0) (fragment.get 1)
      = (0, (fragment.get 1 + 1) % 256) := by
    unfold wrapOrigin WIDTH
    rw [if_pos hx]
  rw [hw]
  show 128 * ((fragment.get 1 + 1) % 256) + 0 + 30 ≤ 20480
  omega

/-- C14 at the example packet with origin `(200, 3)`: it is processed, with the
effect of the origin `(0, 4)`. -/
theorem origin_wrap_witness :
    wrapExample.get 0 = 200 ∧ (wrapExample.get 1 + 1) % 256 = 4 ∧
      defragPacket zeroFramebuffer wrapExample =
        defragPacket zeroFramebuffer (withOrigin wrapExample 0 4) ∧
      ∃ fb', defragPacket zeroFramebuffer wrapExample = some fb' := by
  have e0 : wrapExample.get 0 = 200 := by
    unfold wrapExample
    rw [withOrigin_get, if_pos rfl]
  have e1 : wrapExample.get 1 = 3 := by
    unfold wrapExample
    rw [withOrigin_get, if_neg (by omega), if_pos rfl]
  have h := origin_wrap zeroFramebuffer wrapExample (by rw [e0]; omega)
  rw [e1] at h
  exact ⟨e0, by rw [e1], h.1, h.2 (by omega)⟩

/-- C16. Defragmenter write bounds: with `(nx, ny) = wrapOrigin origin_x origin_y`,
all 30 pixel writes of a packet land inside the framebuffer (the update
succeeds) if and only if `128 * ny + nx + 30 ≤ 20480`; otherwise the update
stops at a write, one of the 30, whose row index is at least 160 (its column
being inside the row). -/
theorem defrag_write_bounds (fb : Framebuffer) (fragment : Packet) :
    ((∃ fb', defragPacket fb fragment = some fb') ↔
      128 * (wrapOrigin (fragment.get 0) (fragment.get 1)).2
        + (wrapOrigin (fragment.get 0) (fragment.get 1)).1 + 30 ≤ 20480) ∧
    (¬ 128 * (wrapOrigin (fragment.get 0) (fragment.get 1)).2
        + (wrapOrigin (fragment.get 0) (fragment.get 1)).1 + 30 ≤ 20480 →
      defragPacket fb fragment = none ∧
      ∃ m s, m < 30 ∧
        forLoop (defragPixel fragment) 2 m
          { x := fragment.get 0, y := fragment.get 1, rgb565 := fb } = some s ∧
        defragPixel fragment (2 + m) s = none ∧
        (if s.x ≥ WIDTH then (s.y + 1) % 256 else s.y) ≥ HEIGHT ∧
        (if s.x ≥ WIDTH then 0 else s.x) < WIDTH) := by
  refine ⟨⟨fun h => ?_, defragPacket_fits fb fragment⟩, defragPacket_overrun fb fragment⟩
  by_contra hnf
  obtain ⟨fb', hf⟩ := h
  rw [(defragPacket_overrun fb fragment hnf).1] at hf
  exact absurd hf (by simp)

/-- C16 at the origins `(127, 159)` and `(0, 160)`: neither packet fits, and
the update fails on both. -/
theorem defrag_write_bounds_examples :
    defragPacket zeroFramebuffer overrunExample = none ∧
      defragPacket zeroFramebuffer (withOrigin examplePacket 0 160) = none := by
  have a0 : overrunExample.get 0 = 127 := by
    unfold overrunExample
    rw [withOrigin_get, if_pos rfl]
  have a1 : overrunExample.get 1 = 159 := by
    unfold overrunExample
    rw [withOrigin_get, if_neg (by omega), if_pos rfl]
  have b0 : (withOrigin examplePacket 0 160).get 0 = 0 := by
    rw [withOrigin_get, if_pos rfl]
  have b1 : (withOrigin examplePacket 0 160).get 1 = 160 := by
    rw [withOrigin_get, if_neg (by omega), if_pos rfl]
  refine ⟨((defrag_write_bounds zeroFramebuffer overrunExample).2 ?_).1,
    ((defrag_write_bounds zeroFramebuffer (withOrigin examplePacket 0 160)).2 ?_).1⟩
  · rw [a0, a1]
    decide
  · rw [b0, b1]
    decide

/-! ### Intermediate states of the fragmenter (C15, C17) -/

theorem fragStateBeforePacket_spec (prev : FragState) (g : Frame) (j : Nat) (hj : j ≤ 682) :
    ∃ s, fragStateBeforePacket prev g j = some s ∧ s.index = 32 * j ∧ s.x ≤ 128 ∧
      128 * s.y + s.x = 30 * j ∧ (j = 0 ∨ 1 ≤ s.x) := by
  obtain ⟨s, h, hi, hx, hn, hp, _⟩ :=
    fragPackets_loop g j 0 { prev with x := 0, y := 0, index := 0 } (by omega) rfl
      (by simp) (by simp) (Or.inl rfl)
  refine ⟨s, h, by omega, hx, by omega, ?_⟩
  rcases hp with hp | hp
  · exact Or.inl (by omega)
  · exact Or.inr hp

theorem fragStateAt_spec (prev : FragState) (g : Frame) (j m : Nat) (hj : j < 682)
    (hm : m ≤ 30) :
    ∃ s0 s1 s, fragStateBeforePacket prev g j = some s0 ∧ fragHeader s0 = some s1 ∧
      forLoop (fragPayload g) 2 m s1 = some s ∧
      fragStateAt prev g j m = some s ∧ s.index = 32 * j + 2 + m ∧ s.x ≤ 128 ∧
      128 * s.y + s.x = 30 * j + m ∧ (30 * j + m = 0 ∨ 1 ≤ s.x) := by
  obtain ⟨s0, h0, hi0, hx0, hn0, hp0⟩ := fragStateBeforePacket_spec prev g j (by omega)
  obtain ⟨s1, h1, hx1, hy1, hi1, _⟩ := fragHeader_spec s0 (by omega)
  obtain ⟨s, h2, hx2, hn2, hp2, hi2, _⟩ :=
    fragPayload_loop g m 2 s1 (30 * j) (by omega) (by rw [hx1, hy1]; exact hn0)
      (by omega) (by omega)
  have hh : fragStateAt prev g j m = some s := by
    unfold fragStateAt
    rw [h0, Option.some_bind, h1, Option.some_bind]
    exact h2
  refine ⟨s0, s1, s, h0, h1, h2, hh, by omega, hx2, hn2, ?_⟩
  by_cases hm0 : 0 < m
  · exact Or.inr (hp2 hm0)
  · have hm' : m = 0 := by omega
    subst hm'
    have hs : s = s1 := by
      have h3 : some s1 = some s := h2
      exact (Option.some.inj h3).symm
    rcases hp0 with hp0 | hp0
    · exact Or.inl (by omega)
    · exact Or.inr (by rw [hs, hx1]; exact hp0)

theorem fragmentFrame_through (prev : FragState) (g : Frame) (j m : Nat) (hj : j < 682)
    (hm : m ≤ 30) (s : FragState) (hs : fragStateAt prev g j m = some s) :
    fragmentFrame prev g =
      (forLoop (fragPayload g) (2 + m) (30 - m) s).bind
        (forLoop (fragPacket g) (j + 1) (681 - j)) := by
  obtain ⟨s0, s1, s', h0, h1, h2, hh, _⟩ := fragStateAt_spec prev g j m hj hm
  have hss : s' = s := by
    rw [hs] at hh
    exact (Option.some.inj hh).symm
  subst hss
  have e1 : (682 : Nat) = j + ((681 - j) + 1) := by omega
  have e2 : (30 : Nat) = m + (30 - m) := by omega
  have hpk : fragPacket g j s0 = forLoop (fragPayload g) (2 + m) (30 - m) s' := by
    unfold fragPacket
    rw [h1, Option.some_bind]
    show forLoop (fragPayload g) 2 30 s1 = _
    rw [e2, forLoop_add, h2, Option.some_bind]
    have e3 : m + (30 - m) - m = 30 - m := by omega
    rw [e3]
  have h0' : forLoop (fragPacket g) 0 j { prev with x := 0, y := 0, index := 0 } = some s0 := h0
  unfold fragmentFrame
  rw [e1, forLoop_add, h0', Option.some_bind, Nat.zero_add]
  show (fragPacket g j s0).bind (forLoop (fragPacket g) (j + 1) (681 - j)) = _
  rw [hpk]
/-- C17. Fragmenter index safety: for every frame the run completes with the
write index at 21824. Before each packet `j < 682` the two header writes use
the indices `32 * j` and `32 * j + 1`, both below 21824. In each state on the
run in which a wrap test and sample read take place (packet `j < 682`, payload
iteration `m < 30`) the cursor holds `x ≤ 128` and `y ≤ 159`, the cursor after
the wrap test has `x ≤ 127` and `y ≤ 159` with `y` incremented without 8-bit
overflow, and the write index is `32 * j + 2 + m < 21824`. -/
theorem fragmenter_index_safety (prev : FragState) (grayscale : Frame) :
    (∃ s, fragmentFrame prev grayscale = some s ∧ s.index = 21824 ∧ s.x ≤ 128 ∧ s.y ≤ 159) ∧
    (∀ j, j < 682 →
      ∃ s, fragStateBeforePacket prev grayscale j = some s ∧
        s.x ≤ 128 ∧ s.y ≤ 159 ∧ s.index = 32 * j ∧ s.index + 1 < 21824) ∧
    (∀ j m, j < 682 → m < 30 →
      ∃ s, fragStateAt prev grayscale j m = some s ∧
        fragmentFrame prev grayscale =
          (forLoop (fragPayload grayscale) (2 + m) (30 - m) s).bind
            (forLoop (fragPacket grayscale) (j + 1) (681 - j)) ∧
        s.x ≤ 128 ∧ s.y ≤ 159 ∧
        (if s.x ≥ WIDTH then 0 else s.x) ≤ 127 ∧
        (if s.x ≥ WIDTH then s.y + 1 else s.y) ≤ 159 ∧
        (if s.x ≥ WIDTH then 0 else s.x) + 1 < 256 ∧
        s.index = 32 * j + 2 + m ∧ s.index < 21824) := by
  refine ⟨?_, fun j hj => ?_, fun j m hj hm => ?_⟩
  · obtain ⟨s, h, hi, hx, hy, _⟩ := fragmentFrame_spec prev grayscale
    exact ⟨s, h, hi, by omega, by omega⟩
  · obtain ⟨s, h, hi, hx, hn, _⟩ := fragStateBeforePacket_spec prev grayscale j (by omega)
    exact ⟨s, h, hx, by omega, hi, by omega⟩
  · obtain ⟨_, _, s, _, _, _, h, hi, hx, hn, hp⟩ :=
      fragStateAt_spec prev grayscale j m hj (by omega)
    refine ⟨s, h, fragmentFrame_through prev grayscale j m hj (by omega) s h, hx, by omega,
      ?_, ?_, ?_, hi, by omega⟩
    · unfold WIDTH
      split <;> omega
    · unfold WIDTH
      split <;> omega
    · unfold WIDTH
      split <;> omega

/-! ### The wrap test `x == W` (C15) -/

theorem specFragPayload_eq (g : Frame) (i : Nat) (s : FragState) (hx : s.x ≤ 128) :
    specFragPayload g i s = fragPayload g i s := by
  have h : (s.x = WIDTH) = (s.x ≥ WIDTH) := by
    unfold WIDTH
    exact propext ⟨fun h => by omega, fun h => by omega⟩
  unfold specFragPayload fragPayload
  simp only [h]

theorem fragPayload_x_le (g : Frame) (i : Nat) (s t : FragState)
    (h : fragPayload g i s = some t) : t.x ≤ 128 := by
  unfold fragPayload at h
  by_cases hc : (if s.x ≥ WIDTH then (s.y + 1) % 256 else s.y) < HEIGHT ∧
      (if s.x ≥ WIDTH then 0 else s.x) < WIDTH
  · simp only [if_pos hc] at h
    obtain ⟨buf, _, hb⟩ := Option.map_eq_some'.mp h
    rw [← hb]
    show ((if s.x ≥ WIDTH then 0 else s.x) + 1) % 256 ≤ 128
    have h2 : (if s.x ≥ WIDTH then 0 else s.x) < 128 := hc.2
    omega
  · simp only [if_neg hc] at h
    exact absurd h (by simp)

theorem fragHeader_x (s t : FragState) (h : fragHeader s = some t) : t.x = s.x := by
  unfold fragHeader at h
  obtain ⟨b1, _, h1⟩ := Option.bind_eq_some.mp h
  obtain ⟨b2, _, h2⟩ := Option.map_eq_some'.mp h1
  rw [← h2]

theorem forLoop_congr_inv {σ : Type} (Inv : σ → Prop) (b1 b2 : Nat → σ → Option σ)
    (hstep : ∀ k s, Inv s → b1 k s = b2 k s)
    (hpres : ∀ k s t, Inv s → b2 k s = some t → Inv t) :
    ∀ (n i : Nat) (s : σ), Inv s →
      forLoop b1 i n s = forLoop b2 i n s ∧ ∀ t, forLoop b2 i n s = some t → Inv t := by
  intro n
  induction n with
  | zero =>
    intro i s hs
    refine ⟨rfl, fun t ht => ?_⟩
    have h : some s = some t := ht
    rw [← Option.some.inj h]
    exact hs
  | succ n ih =>
    intro i s hs
    show (b1 i s).bind (forLoop b1 (i + 1) n) = (b2 i s).bind (forLoop b2 (i + 1) n) ∧
      ∀ t, (b2 i s).bind (forLoop b2 (i + 1) n) = some t → Inv t
    rw [hstep i s hs]
    cases hb : b2 i s with
    | none =>
      rw [Option.none_bind, Option.none_bind]
      exact ⟨rfl, fun t ht => Option.noConfusion ht⟩
    | some u =>
      rw [Option.some_bind, Option.some_bind]
      exact ih (i + 1) u (hpres i s u hs hb)

theorem specFragPacket_eq (g : Frame) (j : Nat) (s : FragState) (hx : s.x ≤ 128) :
    specFragPacket g j s = fragPacket g j s ∧ ∀ t, fragPacket g j s = some t → t.x ≤ 128 := by
  unfold specFragPacket fragPacket
  cases hh : fragHeader s with
  | none =>
    rw [Option.none_bind, Option.none_bind]
    exact ⟨rfl, fun t ht => Option.noConfusion ht⟩
  | some u =>
    rw [Option.some_bind, Option.some_bind]
    have hu : u.x ≤ 128 := by rw [fragHeader_x s u hh]; exact hx
    exact forLoop_congr_inv (fun s : FragState => s.x ≤ 128) (specFragPayload g)
      (fragPayload g) (fun k s hs => specFragPayload_eq g k s hs)
      (fun k s t _ ht => fragPayload_x_le g k s t ht) 30 2 u hu

theorem specFragmenterOutput_eq (prev : FragState) (g : Frame) :
    specFragmenterOutput prev g = fragmenterOutput prev g := by
  have h := (forLoop_congr_inv (fun s : FragState => s.x ≤ 128) (specFragPacket g)
    (fragPacket g) (fun k s hs => (specFragPacket_eq g k s hs).1)
    (fun k s t hs ht => (specFragPacket_eq g k s hs).2 t ht) 682 0
    { prev with x := 0, y := 0, index := 0 } (Nat.zero_le 128)).1
  unfold specFragmenterOutput fragmenterOutput specFragmentFrame fragmentFrame
  rw [h]

/-- C15. Wrap test equivalence in the fragmenter: the fragmenter written with
the wrap test `x == W` produces, for every frame, the same 21824 bytes as the
code with `x >= WIDTH`: the two payload iterations agree on every state with
`x ≤ 128`, and every state of the run in which a wrap test takes place has
`x ≤ 128`. -/
theorem wrap_test_equivalence (prev : FragState) (grayscale : Frame) :
    specFragmenterOutput prev grayscale = fragmenterOutput prev grayscale ∧
      (∃ out, fragmenterOutput prev grayscale = some out ∧ out.length = 21824) ∧
      (∀ i s, s.x ≤ 128 → specFragPayload grayscale i s = fragPayload grayscale i s) ∧
      (∀ j m, j < 682 → m < 30 →
        ∃ s, fragStateAt prev grayscale j m = some s ∧ s.x ≤ 128) := by
  refine ⟨specFragmenterOutput_eq prev grayscale,
    ⟨_, fragmenterOutput_eq prev grayscale, by simp⟩,
    fun i s hs => specFragPayload_eq grayscale i s hs, fun j m hj hm => ?_⟩
  obtain ⟨_, _, s, _, _, _, h, _, hx, _⟩ := fragStateAt_spec prev grayscale j m hj (by omega)
  exact ⟨s, h, hx⟩

/-! ### Order independence (C18) -/

theorem defragPacket_range (fb : Framebuffer) (p : Packet) (hp : packetFits p) :
    ∃ fb', defragPacket fb p = some fb' ∧
      ∀ k, fb'.get k =
        if packetStart p ≤ k ∧ k < packetStart p + 30 then
          rgb565Convert (p.get (2 + (k - packetStart p)))
        else fb.get k :=
  defragPacket_spec fb p hp.1 hp.2

theorem defragPacket_comm (fb : Framebuffer) (p q : Packet) (hp : packetFits p)
    (hq : packetFits q) (hd : writesDisjoint p q) :
    ∃ f1 f2 f, defragPacket fb p = some f1 ∧ defragPacket f1 q = some f ∧
      defragPacket fb q = some f2 ∧ defragPacket f2 p = some f := by
  obtain ⟨f1, h1, g1⟩ := defragPacket_range fb p hp
  obtain ⟨f12, h12, g12⟩ := defragPacket_range f1 q hq
  obtain ⟨f2, h2, g2⟩ := defragPacket_range fb q hq
  obtain ⟨f21, h21, g21⟩ := defragPacket_range f2 p hp
  have e : f21 = f12 := by
    apply CArray.ext_get
    intro k _
    rw [g21 k, g2 k, g12 k, g1 k]
    unfold writesDisjoint at hd
    by_cases c1 : packetStart p ≤ k ∧ k < packetStart p + 30
    · have c2 : ¬ (packetStart q ≤ k ∧ k < packetStart q + 30) := by omega
      rw [if_pos c1, if_neg c2, if_pos c1]
    · rw [if_neg c1, if_neg c1]
  exact ⟨f1, f2, f12, h1, h12, h2, by rw [h21, e]⟩

theorem defragPackets_perm {l1 l2 : List Packet} (h : l1.Perm l2) :
    (∀ p, p ∈ l1 → packetFits p) → l1.Pairwise writesDisjoint →
      ∀ fb, defragPackets l1 fb = defragPackets l2 fb := by
  induction h with
  | nil => intro _ _ fb; rfl
  | cons x _ ih =>
    intro hf hd fb
    show (defragPacket fb x).bind (defragPackets _) = (defragPacket fb x).bind (defragPackets _)
    cases defragPacket fb x with
    | none => rw [Option.none_bind, Option.none_bind]
    | some f =>
      rw [Option.some_bind, Option.some_bind]
      exact ih (fun p hp => hf p (List.mem_cons_of_mem x hp)) (List.Pairwise.of_cons hd) f
  | swap x y l =>
    intro hf hd fb
    have hy : packetFits y := hf y (List.mem_cons_self y _)
    have hx : packetFits x := hf x (List.mem_cons_of_mem y (List.mem_cons_self x l))
    have hyx : writesDisjoint y x :=
      (List.pairwise_cons.mp hd).1 x (List.mem_cons_self x l)
    obtain ⟨f1, f2, f, h1, h12, h2, h21⟩ := defragPacket_comm fb y x hy hx hyx
    show (defragPacket fb y).bind (fun f => (defragPacket f x).bind (defragPackets l)) =
      (defragPacket fb x).bind (fun f => (defragPacket f y).bind (defragPackets l))
    rw [h1, h2, Option.some_bind, Option.some_bind, h12, h21]
  | trans h12 _ ih1 ih2 =>
    intro hf hd fb
    have hsymm : ∀ {p q : Packet}, writesDisjoint p q → writesDisjoint q p := by
      intro p q hpq
      unfold writesDisjoint at hpq ⊢
      omega
    rw [ih1 hf hd fb]
    exact ih2 (fun p hp => hf p (h12.mem_iff.mpr hp))
      ((List.Perm.pairwise_iff hsymm h12).mp hd) fb

theorem framePackets_get (g : Frame) (j : Nat) (hj : j < 682) :
    (packetAt ((List.range 21824).map (fragByte g)) j).get 0 = headerX j ∧
      (packetAt ((List.range 21824).map (fragByte g)) j).get 1 = headerY j := by
  have e0 := packetAt_frag g j 0 hj (by omega)
  have e1 := packetAt_frag g j 1 hj (by omega)
  rw [(fragByte_header g j).1] at e0
  rw [(fragByte_header g j).2] at e1
  exact ⟨e0, e1⟩

theorem framePackets_start (g : Frame) (j : Nat) (hj : j < 682) :
    packetStart (packetAt ((List.range 21824).map (fragByte g)) j) = 30 * j ∧
      packetFits (packetAt ((List.range 21824).map (fragByte g)) j) := by
  obtain ⟨e0, e1⟩ := framePackets_get g j hj
  have hr := header_raster j
  have hx := headerX_le j
  have hs : packetStart (packetAt ((List.range 21824).map (fragByte g)) j) = 30 * j := by
    unfold packetStart
    rw [e0, e1]
    exact hr
  refine ⟨hs, ?_, ?_⟩
  · rw [e0]
    exact hx
  · rw [hs]
    omega

theorem framePackets_good (g : Frame) :
    (∀ p, p ∈ framePackets ((List.range 21824).map (fragByte g)) → packetFits p) ∧
      (framePackets ((List.range 21824).map (fragByte g))).Pairwise writesDisjoint := by
  unfold framePackets
  constructor
  · intro p hp
    obtain ⟨j, hj, rfl⟩ := List.mem_map.mp hp
    exact (framePackets_start g j (List.mem_range.mp hj)).2
  · rw [List.pairwise_map]
    refine List.Pairwise.imp_of_mem ?_ (List.pairwise_lt_range 682)
    intro a b ha hb hab
    have sa := (framePackets_start g a (List.mem_range.mp ha)).1
    have sb := (framePackets_start g b (List.mem_range.mp hb)).1
    unfold writesDisjoint
    rw [sa, sb]
    omega

/-- C18. Order independence within a frame: for every frame and every initial
framebuffer, the 682 packets the fragmenter emits write pairwise disjoint pixel
ranges (each changes no pixel outside its own range), and applying the defragmenter's per-packet update to any permutation
of them succeeds with the same final framebuffer as the original order. -/
theorem order_independence (prev : FragState) (grayscale : Frame) (fb0 : Framebuffer) :
    ∃ out fb, fragmenterOutput prev grayscale = some out ∧
      defragPackets (framePackets out) fb0 = some fb ∧
      (framePackets out).Pairwise writesDisjoint ∧
      (∀ p, p ∈ framePackets out → ∀ f, ∃ f', defragPacket f p = some f' ∧
        ∀ k, ¬ (packetStart p ≤ k ∧ k < packetStart p + 30) → f'.get k = f.get k) ∧
      ∀ l, List.Perm l (framePackets out) → defragPackets l fb0 = some fb := by
  obtain ⟨out, fb, h1, h2, _⟩ := roundTrip_flat prev grayscale fb0
  have ho : out = (List.range 21824).map (fragByte grayscale) := by
    rw [fragmenterOutput_eq] at h1
    exact (Option.some.inj h1).symm
  obtain ⟨hf, hd⟩ := framePackets_good grayscale
  rw [← ho] at hf hd
  refine ⟨out, fb, h1, h2, hd, fun p hp f => ?_, fun l hl => ?_⟩
  · obtain ⟨f', hf', hg⟩ := defragPacket_range f p (hf p hp)
    exact ⟨f', hf', fun k hk => by rw [hg k, if_neg hk]⟩
  · rw [← defragPackets_perm hl.symm hf hd fb0]
    exact h2

/-! ### Flush cadence on a stream that leaves the framebuffer (C6) -/

end NRF24
